import Mathlib

/-!
Verification of the OCFL entity-resolution and walk engine.

The development shallowly embeds the walk engine of the repository:
  * the entity model (`EntityRef`, `Coords`) from `resolv/resolv.go`,
  * scope construction, the two-phase walk, version/file enumeration and
    the containment predicate (`newScope`, `walk`, `walkObject`,
    `walkVersions`, `contains`, `fsWalk`) from the `file` package.
External collaborators of the engine (the `ocfl.Type` enumeration, the
root/object probe `findRoot`/`isRoot`, and the manifest accessor
`readMetadata`/`Inventory`) are not part of the given sources; they are
modelled from the specification as documented at each definition.

Filesystem I/O is modelled by a finite directory tree (`FsTree`) with
explicit error injection points (probe failures, manifest-load failures,
directory-read failures), and the walk is embedded as a pure function
producing the ordered list of entities handed to the caller's callback
together with the error, if any, that terminated the walk.
-/

namespace Ocfl

/-- Modelled from the spec: the `ocfl.Type` enumeration of the repository's
root package (not among the given sources).  The spec lists the entity
types by semantic depth, `Root < Intermediate < Object < Version < File`,
plus the wildcard `Any`, and states that the comparisons `<=`, `<` on this
enumeration drive traversal depth decisions.  The operational sentences of
the spec fix the numeric order of the enumeration to be by specificity
(the reverse of the depth listing): descending into version enumeration
happens for desired type Version or "shallower (Version/File)" via the
source comparison `desired.Type <= ocfl.Version`, a node lies beneath an
object (is a Version or File) iff `node.Type < ocfl.Object`, and wildcard
walks descend everywhere.  Hence `Any = 0 < File < Version < Object <
Intermediate < Root`. -/
inductive OcflType where
  | Any
  | File
  | Version
  | Object
  | Intermediate
  | Root
deriving DecidableEq, Repr

/-- Numeric value of an `ocfl.Type` constant (see `OcflType`). -/
def OcflType.code : OcflType → Nat
  | .Any => 0
  | .File => 1
  | .Version => 2
  | .Object => 3
  | .Intermediate => 4
  | .Root => 5

/-- Go `<=` on `ocfl.Type` (comparison of the integer constants). -/
def OcflType.le (a b : OcflType) : Bool := a.code ≤ b.code

/-- Go `<` on `ocfl.Type` (comparison of the integer constants). -/
def OcflType.ltc (a b : OcflType) : Bool := a.code < b.code

/-- Struct `resolv.EntityRef`: one OCFL entity, with logical `ID`, physical
address `Addr`, entity type, and the `Parent` pointer to the nearest
non-intermediate ancestor (`nil` is `none`).  The Go struct's pointer
chain is embedded as a finite chain of values. -/
inductive EntityRef where
  | mk (id addr : String) (t : OcflType) (parent : Option EntityRef)

/-- Structural equality of refs (Go compares struct values field by
field; the parent pointers are compared as values here). -/
def EntityRef.beq : EntityRef → EntityRef → Bool
  | .mk i a t p, .mk i' a' t' p' =>
    i == i' && a == a' && t == t' &&
      match p, p' with
      | none, none => true
      | some x, some y => EntityRef.beq x y
      | _, _ => false

theorem EntityRef.beq_iff : ∀ x y : EntityRef, (EntityRef.beq x y = true) ↔ x = y
  | .mk i a t none, .mk i' a' t' none => by
    simp [EntityRef.beq, and_assoc]
  | .mk i a t none, .mk i' a' t' (some y) => by
    simp [EntityRef.beq]
  | .mk i a t (some x), .mk i' a' t' none => by
    simp [EntityRef.beq]
  | .mk i a t (some x), .mk i' a' t' (some y) => by
    have ih := EntityRef.beq_iff x y
    simp [EntityRef.beq, ih, and_assoc]

instance : DecidableEq EntityRef :=
  fun x y => decidable_of_iff _ (EntityRef.beq_iff x y)

/-- Field `EntityRef.ID`. -/
def EntityRef.ID : EntityRef → String
  | .mk i _ _ _ => i

/-- Field `EntityRef.Addr`. -/
def EntityRef.Addr : EntityRef → String
  | .mk _ a _ _ => a

/-- Field `EntityRef.Type`. -/
def EntityRef.Type : EntityRef → OcflType
  | .mk _ _ t _ => t

/-- Field `EntityRef.Parent` (a Go nil pointer is `none`). -/
def EntityRef.Parent : EntityRef → Option EntityRef
  | .mk _ _ _ p => p

/-- Method `EntityRef.Coords` from `resolv/resolv.go`: starting at the entity and
following `Parent` links while the current ref is non-nil and not of type
Root, prepend each visited `ID`; the result lists ids in root-to-leaf
order. -/
def EntityRef.Coords : EntityRef → List String
  | .mk i _ t p =>
    if t = .Root then []
    else
      match p with
      | none => [i]
      | some q => q.Coords ++ [i]

/-- The self-then-ancestors chain of a ref, leaf first (a specification
helper; the Go code stores only the `Parent` pointers). -/
def EntityRef.chain : EntityRef → List EntityRef
  | .mk i a t p =>
    .mk i a t p ::
      match p with
      | some q => q.chain
      | none => []

/-- Whether the ref or one of its ancestors has the given type (a
specification helper describing when the modelled probe succeeds). -/
def EntityRef.hasType : EntityRef → OcflType → Bool
  | .mk _ _ t p, u =>
    t == u ||
      match p with
      | some q => q.hasType u
      | none => false

/-- The chain is well formed in the sense of the spec's invariant:
following `Parent` links terminates at a Root-typed ref with nil parent,
and no ref before that terminal one is Root-typed. -/
def EntityRef.rootedChain : EntityRef → Bool
  | .mk _ _ t none => t == .Root
  | .mk _ _ t (some p) => t != .Root && p.rootedChain

/-- Walk/driver errors.  Error wrapping by `pkg/errors` preserves the
cause, so errors are modelled by their cause; `nilDeref` stands for the
Go nil-pointer fault available in `walkVersions` when the discarded
`findRoot` error would have been non-nil. -/
inductive Err where
  | rootNotFound
  | objectProbeFailed (path : String)
  | manifestLoadFailed (path : String)
  | versionNotFound (vID objectID : String)
  | directoryAccessFailed (path : String)
  | userErr (n : Nat)
  | nilDeref
deriving DecidableEq, Repr

/-- Modelled from the spec: the root/object probe
`findNearestRoot(ref, type)` (named `findRoot` in the source's `file`
package, which is not among the given sources).  It resolves the nearest
enclosing entity of the requested type — the ref itself or the nearest
ancestor — failing with a `RootNotFound` kind if none exists.  Enclosure
is modelled by the `Parent` chain, which by the spec's invariant mirrors
physical enclosure for refs produced by the engine. -/
def findRoot : EntityRef → OcflType → Except Err EntityRef
  | .mk i a t p, u =>
    if t == u then .ok (.mk i a t p)
    else
      match p with
      | some q => findRoot q u
      | none => .error .rootNotFound

/-- Struct `scope` from the `file` package: the storage root, the entry point,
and the desired (target) ref of one walk. -/
structure Scope where
  root : EntityRef
  startFrom : EntityRef
  desired : EntityRef
deriving DecidableEq

/-- Function `newScope(under, t)`: resolve the enclosing storage root (failing if
`findRoot` fails), and set `desired` to a bare ref of type `t` unless the
starting entity already has exactly type `t`, in which case `desired`
aliases `under`. -/
def newScope (under : EntityRef) (t : OcflType) : Except Err Scope :=
  match findRoot under .Root with
  | .error e => .error e
  | .ok root =>
    .ok { root := root
          startFrom := under
          desired := if under.Type == t then under else .mk "" "" t none }

/-- The lockstep loop of `contains`: walk the two `Parent` chains
simultaneously while both refs have a parent, requiring the paired `ID`
fields to be equal at each step. -/
def lockstepIDs : EntityRef → EntityRef → Bool
  | .mk ai _ _ (some a'), .mk bi _ _ (some b') => ai == bi && lockstepIDs a' b'
  | _, _ => true

/-- Method `scope.contains(r)`: the containment predicate.  A wildcard desired
type matches everything; a candidate whose type differs from the entry
point's type is in scope iff its type equals the desired type; otherwise
the desired and candidate chains must agree in lockstep and the candidate
type must not exceed the desired type. -/
def Scope.contains (s : Scope) (r : EntityRef) : Bool :=
  if s.desired.Type == .Any then true
  else if r.Type != s.startFrom.Type then s.desired.Type == r.Type
  else lockstepIDs s.desired r && OcflType.le r.Type s.desired.Type

/-- One entry of a version's file listing: the logical (user-facing)
path and the physical path relative to the object root. -/
structure FileEntry where
  LogicalPath : String
  PhysicalPath : String
deriving DecidableEq, Repr

/-- Modelled from the spec: the parsed inventory returned by the manifest
accessor (`metadata.Inventory`, not among the given sources).  `ID` is
the object identifier; `Versions` is the key set of the version map (Go
map iteration is unordered, so the model fixes one arbitrary order and
claims never depend on it); `Files` is the per-version file-listing
accessor `inv.Files(vID)`, whose Go `(files, error)` result is modelled
as `some files` on success and `none` on error. -/
structure Inventory where
  ID : String
  Versions : List String
  Files : String → Option (List FileEntry)

/-- The membership test `_, ok := versions[vID]` on the version map. -/
def hasVersion (inv : Inventory) (v : String) : Bool := inv.Versions.contains v

/-- Go `filepath.Join` restricted to the engine's use: all joined components
are non-empty and already clean, so joining is slash concatenation. -/
def joinPath (a b : String) : String := a ++ "/" ++ b

/-- Go `strings.TrimPrefix`. -/
def goTrimPre (s pre : String) : String :=
  if pre.isPrefixOf s then s.drop pre.length else s

/-- The intermediate-node id computed by the walk: the root-relative
slash-normalized path (`filepath.ToSlash` is the identity on the
slash-joined addresses of the model). -/
def relID (rootAddr ospath : String) : String :=
  goTrimPre (goTrimPre ospath rootAddr) "/"

/-- Classification of one directory entry as the walk sees it, with the
collaborators' answers for it baked into the layout: `plainFile` is a
non-directory non-symlink entry; `dir` is a directory the probe classifies
as not an object root (`readErr` injects a directory-read failure below
it); `objectRoot` is a directory the probe classifies as an object root,
carrying the manifest accessor's answer for it (`none` injects a manifest
load failure); `probeErr` injects a probe error. -/
inductive NodeKind where
  | plainFile
  | dir (readErr : Bool)
  | objectRoot (inv : Option Inventory)
  | probeErr

mutual

/-- A finite directory tree: a node kind plus named children. -/
inductive FsTree where
  | mk (k : NodeKind) (children : FsForest)

/-- The named children of a directory, in the (unspecified in Go,
fixed by the model) enumeration order. -/
inductive FsForest where
  | nil
  | cons (name : String) (t : FsTree) (rest : FsForest)

end

/-- A storage layout: the address of the on-disk tree's root and the
tree itself. -/
structure Layout where
  rootAddr : String
  tree : FsTree

mutual

/-- Addresses and subtrees of every node of a tree rooted at `base`
(the node itself first, then its descendants in enumeration order). -/
def nodesOf (base : String) : FsTree → List (String × FsTree)
  | .mk k ch => (base, .mk k ch) :: nodesOfF base ch

/-- Like `nodesOf`, over a forest of children of the directory at `base`. -/
def nodesOfF (base : String) : FsForest → List (String × FsTree)
  | .nil => []
  | .cons name t rest => nodesOf (joinPath base name) t ++ nodesOfF base rest

end

mutual

/-- Resolve an address to the subtree rooted there (the `os.Stat` of
`fsWalk`): the first node of the tree whose computed address is `addr`. -/
def findNode (base : String) (t : FsTree) (addr : String) : Option FsTree :=
  if base = addr then some t
  else
    match t with
    | .mk _ ch => findNodeF base ch addr

/-- Like `findNode`, over a forest of children of the directory at `base`. -/
def findNodeF (base : String) (ch : FsForest) (addr : String) : Option FsTree :=
  match ch with
  | .nil => none
  | .cons name t rest =>
    match findNode (joinPath base name) t addr with
    | some r => some r
    | none => findNodeF base rest addr

end

/-- The caller's callback: `nil` return is `none`, an error is `some`. -/
abbrev Cb := EntityRef → Option Err

/-- The observable outcome of (part of) a walk: the refs passed to the
caller's callback, in order, and the error that aborted the walk, if
any. -/
abbrev ERes := List EntityRef × Option Err

/-- Sequencing with Go's early-return discipline: if the first part
ended in an error nothing further runs, otherwise the second part runs
and its reports are appended. -/
def seqE (a : ERes) (b : Unit → ERes) : ERes :=
  match a with
  | (es, some e) => (es, some e)
  | (es, none) =>
    let r := b ()
    (es ++ r.1, r.2)

/-- One guarded report site (`if s.contains(r) { err := f(r); ... }`):
if the candidate is in scope the callback receives it and its error, if
any, aborts. -/
def emit (s : Scope) (f : Cb) (r : EntityRef) : ERes :=
  if s.contains r then ([r], f r) else ([], none)

/-- The per-version file loop of `walkVersions`: each listed file becomes
a File ref (logical path as id, physical path joined under the object
address, the version as parent) and is reported if in scope. -/
def loopFiles (s : Scope) (object version : EntityRef) (files : List FileEntry)
    (f : Cb) : ERes :=
  match files with
  | [] => ([], none)
  | fe :: rest =>
    let fileRef := EntityRef.mk fe.LogicalPath (joinPath object.Addr fe.PhysicalPath)
      .File (some version)
    seqE (emit s f fileRef) fun _ => loopFiles s object version rest f

/-- The version loop of `walkVersions` over the (possibly narrowed) key
set: each version id becomes a Version ref reported if in scope, and if
the desired type admits files (`desired.Type <= ocfl.File`) the version's
file listing is fetched — with the accessor's error discarded
(`files, _ := inv.Files(vID)`), so a failed fetch yields no files — and
the file loop runs. -/
def loopVersions (s : Scope) (inv : Inventory) (object : EntityRef)
    (vids : List String) (f : Cb) : ERes :=
  match vids with
  | [] => ([], none)
  | vID :: rest =>
    let version := EntityRef.mk vID (joinPath object.Addr vID) .Version (some object)
    seqE (emit s f version) fun _ =>
      seqE (if OcflType.le s.desired.Type .File then
              loopFiles s object version ((inv.Files vID).getD []) f
            else ([], none)) fun _ =>
        loopVersions s inv object rest f

/-- Method `scope.walkVersions`: if the entry point is itself a Version or a
File, derive its version id via `findRoot(startFrom, Version)` — the Go
code discards that call's error with a comment that it is impossible and
dereferences the possibly-nil result, which the model records as a
`nilDeref` fault — and narrow the version set to that single id, failing
with the version-not-found error naming the missing id and the object id
when the manifest has no such version; otherwise iterate all versions. -/
def Scope.walkVersionsM (s : Scope) (inv : Inventory) (object : EntityRef)
    (f : Cb) : ERes :=
  if s.startFrom.Type == .Version || s.startFrom.Type == .File then
    match findRoot s.startFrom .Version with
    | .error _ => ([], some .nilDeref)
    | .ok scopeVersion =>
      if hasVersion inv scopeVersion.ID then
        loopVersions s inv object [scopeVersion.ID] f
      else ([], some (.versionNotFound scopeVersion.ID object.ID))
  else loopVersions s inv object inv.Versions f

/-- Method `scope.walkObject`: load the manifest at the object's path (supplied
by the layout; `none` is a load failure and aborts), build the Object ref
(manifest id, object path, storage root as parent), report it if in
scope, then descend into version enumeration iff
`desired.Type <= ocfl.Version`. -/
def Scope.walkObjectM (s : Scope) (path : String) (minv : Option Inventory)
    (f : Cb) : ERes :=
  match minv with
  | none => ([], some (.manifestLoadFailed path))
  | some inv =>
    let object := EntityRef.mk inv.ID path .Object (some s.root)
    seqE (emit s f object) fun _ =>
      if OcflType.le s.desired.Type .Version then s.walkVersionsM inv object f
      else ([], none)

/-- The engine's `fsWalk` callback closure from `scope.walk`, given one
entry's address and kind: plain files are terminal; a probe error aborts;
an object root is terminal and handled by `walkObject`; any other
directory that is not the storage root itself is reported as an
Intermediate (root-relative id, storage root as parent) when a bare
Intermediate ref is in scope, a callback error aborting, and descent
continues. -/
def Scope.cbNode (s : Scope) (f : Cb) (ospath : String) (k : NodeKind) :
    Bool × ERes :=
  match k with
  | .plainFile => (true, ([], none))
  | .probeErr => (true, ([], some (.objectProbeFailed ospath)))
  | .objectRoot minv => (true, s.walkObjectM ospath minv f)
  | .dir _ =>
    if ospath != s.root.Addr &&
        s.contains (.mk "" "" .Intermediate none) then
      let r := EntityRef.mk (relID s.root.Addr ospath) ospath .Intermediate (some s.root)
      match f r with
      | some e => (true, ([r], some e))
      | none => (false, ([r], none))
    else (false, ([], none))

mutual

/-- Primitive `godirwalk.Walk` as configured by `fsWalk`: visit the node itself
first; a callback error halts the whole walk; a terminal node's children
are skipped; otherwise a directory whose entries cannot be read halts
with a directory-access error and the children are visited in order. -/
def fsWalkTree (cb : String → NodeKind → Bool × ERes) (addr : String) :
    FsTree → ERes
  | .mk k ch =>
    let r := cb addr k
    match r.2 with
    | (es, some e) => (es, some e)
    | (es, none) =>
      if r.1 then (es, none)
      else
        match k with
        | .dir true => (es, some (.directoryAccessFailed addr))
        | _ =>
          let r2 := fsWalkForest cb addr ch
          (es ++ r2.1, r2.2)

/-- Children of the directory at `addr`, visited left to right, the
first error halting the whole walk. -/
def fsWalkForest (cb : String → NodeKind → Bool × ERes) (addr : String) :
    FsForest → ERes
  | .nil => ([], none)
  | .cons name t rest =>
    match fsWalkTree cb (joinPath addr name) t with
    | (es, some e) => (es, some e)
    | (es, none) =>
      let r := fsWalkForest cb addr rest
      (es ++ r.1, r.2)

end

/-- Method `scope.walk(f)`: when the entry point lies beneath object granularity
(`node.Type < ocfl.Object`, that is a Version or File entry), resolve the
enclosing object first, failing the walk if that fails; report the
starting node once when it is the storage Root and in scope; then run the
directory walk from the node's address (the storage root's address when
the node has none), failing with a wrapped stat error when the address
does not resolve.  The final `errors.Wrapf` of the Go code preserves the
cause, so the propagated cause is returned directly. -/
def Scope.walkM (s : Scope) (L : Layout) (f : Cb) : ERes :=
  match (if OcflType.ltc s.startFrom.Type .Object then
           findRoot s.startFrom .Object
         else .ok s.startFrom) with
  | .error e => ([], some e)
  | .ok node =>
    seqE (if node.Type == .Root && s.contains node then ([node], f node)
          else ([], none)) fun _ =>
      let startPath := if node.Addr == "" then s.root.Addr else node.Addr
      match findNode L.rootAddr L.tree startPath with
      | none => ([], some (.directoryAccessFailed startPath))
      | some t => fsWalkTree (s.cbNode f) startPath t

/-! ### Reference definitions taken from the specification's wording

These definitions follow the spec sentences rather than the source; they
are compared against the source-derived definitions above. -/

/-- Reference reading of the containment predicate: a wildcard desired
type matches everything; in enumeration mode (candidate type differing
from the entry point's type) membership is equality of candidate and
desired types; in single-resolution mode the Parent chains of desired and
candidate are walked in lockstep while both have a parent — the paired
nodes at each depth are exactly the pairs of the zipped chains with the
parentless tail node of each chain removed — requiring every paired ID to
be equal, together with candidate.Type <= desired.Type in the entity-type
order. -/
def containsSpec (s : Scope) (r : EntityRef) : Bool :=
  if s.desired.Type = .Any then true
  else if r.Type ≠ s.startFrom.Type then s.desired.Type == r.Type
  else
    ((s.desired.chain.dropLast.zip r.chain.dropLast).all fun ab =>
        ab.1.ID == ab.2.ID) &&
      OcflType.le r.Type s.desired.Type

/-- Reference reading of the coordinate derivation: walk from the entity
up through Parent, excluding Root-typed refs, and collect the IDs in
root-to-leaf order. -/
def coordsSpec (e : EntityRef) : List String :=
  ((e.chain.filter fun x => x.Type != OcflType.Root).reverse).map EntityRef.ID

/-! ### Well-formedness of layouts and provenance of reported entities -/

/-- A node kind free of injected collaborator failures. -/
def wfKind : NodeKind → Bool
  | .plainFile => true
  | .dir readErr => !readErr
  | .objectRoot minv => minv.isSome
  | .probeErr => false

mutual

/-- A tree whose probes, manifest loads and directory reads all succeed. -/
def wfTree : FsTree → Bool
  | .mk k ch => wfKind k && wfForest ch

/-- Like `wfTree`, over a forest. -/
def wfForest : FsForest → Bool
  | .nil => true
  | .cons _ t rest => wfTree t && wfForest rest

end

/-- No duplicates in a list of strings. -/
def nodupKeys : List String → Bool
  | [] => true
  | x :: xs => !(xs.contains x) && nodupKeys xs

/-- All computed node addresses of the layout are pairwise distinct (the
on-disk tree assigns one node per path). -/
def addrsOk (L : Layout) : Bool :=
  nodupKeys ((nodesOf L.rootAddr L.tree).map (·.1))

/-- Logical paths are unique within each version listing of an inventory
(a logical path is the identity of a file within a version). -/
def invFilesOk (inv : Inventory) : Bool :=
  inv.Versions.all fun v =>
    nodupKeys (((inv.Files v).getD []).map (·.LogicalPath))

/-- Predicate `invFilesOk` for every inventory of the layout. -/
def filesOk (L : Layout) : Bool :=
  (nodesOf L.rootAddr L.tree).all fun pt =>
    match pt.2 with
    | .mk (.objectRoot (some inv)) _ => invFilesOk inv
    | _ => true

/-- The File ref the engine constructs for file entry `fe` of version
`vID` of the object whose manifest is `inv` at address `p`, under the
storage root `root`. -/
def fileRefOf (root : EntityRef) (p : String) (inv : Inventory) (vID : String)
    (fe : FileEntry) : EntityRef :=
  .mk fe.LogicalPath (joinPath p fe.PhysicalPath) .File
    (some (.mk vID (joinPath p vID) .Version
      (some (.mk inv.ID p .Object (some root)))))

/-- Provenance of a File entity: it is the engine's ref for some file
entry of some version of some object-root node of the layout. -/
def FileFromLayout (L : Layout) (root F : EntityRef) : Prop :=
  ∃ p inv ch vID fe,
    (p, FsTree.mk (.objectRoot (some inv)) ch) ∈ nodesOf L.rootAddr L.tree ∧
    vID ∈ inv.Versions ∧
    fe ∈ (inv.Files vID).getD [] ∧
    F = fileRefOf root p inv vID fe

/-! ### The walk as an event stream

`walkEv` enumerates, without early stopping, the sequence of callback
reports the walk attempts and the error events its collaborators raise;
`runEvents` truncates such a stream at the first error.  Equality of the
walk with the truncated stream expresses the propagation policy: the
first error from any (non-discarded) source stops the whole walk and is
propagated, and nothing is reported past it. -/

/-- One observable step of a walk: a callback report or an error raised
by a collaborator or check. -/
inductive WEvent where
  | report (r : EntityRef)
  | fail (e : Err)
deriving DecidableEq

/-- Run an event stream against a callback, stopping at the first
collaborator error or callback error and propagating it. -/
def runEvents (f : Cb) : List WEvent → ERes
  | [] => ([], none)
  | .fail e :: _ => ([], some e)
  | .report r :: rest =>
    match f r with
    | some e => ([r], some e)
    | none =>
      let x := runEvents f rest
      (r :: x.1, x.2)

/-- Report event of one guarded report site. -/
def emitEv (s : Scope) (r : EntityRef) : List WEvent :=
  if s.contains r then [.report r] else []

/-- Events of the per-version file loop. -/
def loopFilesEv (s : Scope) (object version : EntityRef) :
    List FileEntry → List WEvent
  | [] => []
  | fe :: rest =>
    emitEv s (.mk fe.LogicalPath (joinPath object.Addr fe.PhysicalPath) .File
        (some version)) ++
      loopFilesEv s object version rest

/-- Events of the version loop.  The file-listing accessor's error is
discarded by the source (`files, _ := inv.Files(vID)`), so — deliberately
— no `fail` event exists for it: a failed fetch contributes an empty
listing. -/
def loopVersionsEv (s : Scope) (inv : Inventory) (object : EntityRef) :
    List String → List WEvent
  | [] => []
  | vID :: rest =>
    let version := EntityRef.mk vID (joinPath object.Addr vID) .Version (some object)
    emitEv s version ++
      (if OcflType.le s.desired.Type .File then
        loopFilesEv s object version ((inv.Files vID).getD [])
      else []) ++
      loopVersionsEv s inv object rest

/-- Events of `walkVersions`. -/
def walkVersionsEv (s : Scope) (inv : Inventory) (object : EntityRef) :
    List WEvent :=
  if s.startFrom.Type == .Version || s.startFrom.Type == .File then
    match findRoot s.startFrom .Version with
    | .error _ => [.fail .nilDeref]
    | .ok scopeVersion =>
      if hasVersion inv scopeVersion.ID then
        loopVersionsEv s inv object [scopeVersion.ID]
      else [.fail (.versionNotFound scopeVersion.ID object.ID)]
  else loopVersionsEv s inv object inv.Versions

/-- Events of `walkObject`. -/
def walkObjectEv (s : Scope) (path : String) (minv : Option Inventory) :
    List WEvent :=
  match minv with
  | none => [.fail (.manifestLoadFailed path)]
  | some inv =>
    let object := EntityRef.mk inv.ID path .Object (some s.root)
    emitEv s object ++
      (if OcflType.le s.desired.Type .Version then walkVersionsEv s inv object
       else [])

/-- Events contributed by one directory entry. -/
def cbNodeEv (s : Scope) (ospath : String) (k : NodeKind) : List WEvent :=
  match k with
  | .plainFile => []
  | .probeErr => [.fail (.objectProbeFailed ospath)]
  | .objectRoot minv => walkObjectEv s ospath minv
  | .dir _ =>
    if ospath != s.root.Addr && s.contains (.mk "" "" .Intermediate none) then
      [.report (.mk (relID s.root.Addr ospath) ospath .Intermediate (some s.root))]
    else []

mutual

/-- Events of the directory descent from one node (children of an
unreadable directory cannot be attempted and contribute nothing beyond
the failure event). -/
def fsWalkTreeEv (s : Scope) (addr : String) : FsTree → List WEvent
  | .mk k ch =>
    cbNodeEv s addr k ++
      match k with
      | .dir true => [.fail (.directoryAccessFailed addr)]
      | .dir false => fsWalkForestEv s addr ch
      | _ => []

/-- Events of the directory descent over a forest of children. -/
def fsWalkForestEv (s : Scope) (addr : String) : FsForest → List WEvent
  | .nil => []
  | .cons name t rest =>
    fsWalkTreeEv s (joinPath addr name) t ++ fsWalkForestEv s addr rest

end

/-- The complete attempted event stream of `scope.walk`. -/
def walkEv (s : Scope) (L : Layout) : List WEvent :=
  match (if OcflType.ltc s.startFrom.Type .Object then
           findRoot s.startFrom .Object
         else .ok s.startFrom) with
  | .error e => [.fail e]
  | .ok node =>
    (if node.Type == .Root && s.contains node then [.report node] else []) ++
      (let startPath := if node.Addr == "" then s.root.Addr else node.Addr
       match findNode L.rootAddr L.tree startPath with
       | none => [.fail (.directoryAccessFailed startPath)]
       | some t => fsWalkTreeEv s startPath t)

/-- The inventory with every file-listing failure replaced by an empty
successful listing. -/
def scrubFiles (inv : Inventory) : Inventory :=
  { inv with Files := fun v => some ((inv.Files v).getD []) }

/-! ### Concrete fixtures used by witnesses and counterexamples -/

/-- A two-version inventory (the spec's end-to-end scenario). -/
def invA : Inventory :=
  { ID := "obj-A"
    Versions := ["v1", "v2"]
    Files := fun v =>
      if v = "v1" then some [⟨"a.txt", "v1/content/a.txt"⟩]
      else if v = "v2" then
        some [⟨"a.txt", "v1/content/a.txt"⟩, ⟨"b.txt", "v2/content/b.txt"⟩]
      else none }

/-- Storage root at address `R`, one intermediate directory `inter`, one
object root `obj` with inventory `invA`. -/
def layA : Layout :=
  { rootAddr := "R"
    tree := .mk (.dir false) (.cons "inter" (.mk (.dir false)
      (.cons "obj" (.mk (.objectRoot (some invA)) .nil) .nil)) .nil) }

/-- The storage root ref of `layA`. -/
def rootRefA : EntityRef := .mk "" "R" .Root none

/-- The Object ref the engine constructs for `layA`'s object. -/
def objRefA : EntityRef := .mk "obj-A" "R/inter/obj" .Object (some rootRefA)

/-- The Version ref for `v1` of `layA`'s object. -/
def verRefA1 : EntityRef := .mk "v1" "R/inter/obj/v1" .Version (some objRefA)

/-- The File ref for `a.txt` in `v1` of `layA`'s object. -/
def fileRefA : EntityRef :=
  .mk "a.txt" "R/inter/obj/v1/content/a.txt" .File (some verRefA1)

/-- An entry-point ref naming the nonexistent version `v9` of `layA`'s
object. -/
def verRefA9 : EntityRef := .mk "v9" "R/inter/obj/v9" .Version (some objRefA)

/-- A File entry point under the nonexistent version `v9`. -/
def fileRefA9 : EntityRef := .mk "a.txt" "R/inter/obj/v9/x" .File (some verRefA9)

/-- The callback that always succeeds. -/
def cbOk : Cb := fun _ => none

/-- An inventory whose file-listing accessor always fails. -/
def invB : Inventory :=
  { ID := "obj-B"
    Versions := ["v1"]
    Files := fun _ => none }

/-- Storage root at `R` directly containing one object with inventory
`invB`, whose file listings cannot be fetched. -/
def layB : Layout :=
  { rootAddr := "R"
    tree := .mk (.dir false) (.cons "objB" (.mk (.objectRoot (some invB)) .nil) .nil) }

/-- The Object ref the engine constructs for `layB`'s object. -/
def objRefB : EntityRef := .mk "obj-B" "R/objB" .Object (some rootRefA)

/-- The Version ref the engine constructs for `layB`'s single version. -/
def verRefB1 : EntityRef := .mk "v1" "R/objB/v1" .Version (some objRefB)

/-! ### Basic lemmas about chains, `findRoot` and `contains` -/

theorem chain_dropLast_none (i a : String) (t : OcflType) :
    (EntityRef.mk i a t none).chain.dropLast = [] := rfl

theorem chain_dropLast_some : ∀ (i a : String) (t : OcflType) (q : EntityRef),
    (EntityRef.mk i a t (some q)).chain.dropLast =
      EntityRef.mk i a t (some q) :: q.chain.dropLast
  | i, a, t, .mk j b u p => by
    rw [EntityRef.chain.eq_def]
    cases p <;> simp [EntityRef.chain]

theorem lockstepIDs_refl : ∀ a : EntityRef, lockstepIDs a a = true
  | .mk _ _ _ none => rfl
  | .mk _ _ _ (some p) => by
    simp [lockstepIDs, lockstepIDs_refl p]

theorem lockstepIDs_eq : ∀ a b : EntityRef,
    lockstepIDs a b =
      ((a.chain.dropLast.zip b.chain.dropLast).all fun ab => ab.1.ID == ab.2.ID)
  | .mk _ _ _ none, .mk _ _ _ none => rfl
  | .mk _ _ _ none, .mk _ _ _ (some _) => by
    rw [chain_dropLast_none]
    rfl
  | .mk _ _ _ (some q), .mk _ _ _ none => by
    rw [chain_dropLast_some, chain_dropLast_none]
    rfl
  | .mk ai aa ta (some p), .mk bi ba tb (some q) => by
    rw [chain_dropLast_some, chain_dropLast_some]
    simp [lockstepIDs, lockstepIDs_eq p q, EntityRef.ID]

theorem findRoot_ok_type : ∀ (r : EntityRef) (u : OcflType) (v : EntityRef),
    findRoot r u = .ok v → v.Type = u
  | .mk i a t none, u, v, h => by
    rw [findRoot] at h
    split at h
    · next ht =>
      injection h with h2
      subst h2
      exact eq_of_beq ht
    · exact Except.noConfusion h
  | .mk i a t (some q), u, v, h => by
    rw [findRoot] at h
    split at h
    · next ht =>
      injection h with h2
      subst h2
      exact eq_of_beq ht
    · exact findRoot_ok_type q u v h

theorem findRoot_of_hasType : ∀ (r : EntityRef) (u : OcflType),
    r.hasType u = true → ∃ v, findRoot r u = .ok v
  | .mk i a t none, u, h => by
    rw [EntityRef.hasType] at h
    simp only [Bool.or_false] at h
    refine ⟨.mk i a t none, ?_⟩
    rw [findRoot]
    simp [h]
  | .mk i a t (some q), u, h => by
    rw [EntityRef.hasType] at h
    by_cases ht : (t == u) = true
    · refine ⟨.mk i a t (some q), ?_⟩
      rw [findRoot]
      simp [ht]
    · simp only [ht, Bool.false_or] at h
      obtain ⟨v, hv⟩ := findRoot_of_hasType q u h
      refine ⟨v, ?_⟩
      rw [findRoot]
      simp [ht, hv]

theorem findRoot_err_of_not_hasType : ∀ (r : EntityRef) (u : OcflType),
    r.hasType u = false → findRoot r u = .error .rootNotFound
  | .mk i a t none, u, h => by
    rw [EntityRef.hasType] at h
    simp only [Bool.or_false] at h
    rw [findRoot]
    simp [h]
  | .mk i a t (some q), u, h => by
    rw [EntityRef.hasType] at h
    simp only [Bool.or_eq_false_iff] at h
    rw [findRoot]
    simp [h.1, findRoot_err_of_not_hasType q u h.2]

theorem mem_seqE {e : EntityRef} {a : ERes} {b : Unit → ERes}
    (h : e ∈ (seqE a b).1) : e ∈ a.1 ∨ e ∈ (b ()).1 := by
  rcases a with ⟨es, oe⟩
  cases oe with
  | none =>
    simp only [seqE, List.mem_append] at h
    exact h
  | some e' =>
    simp only [seqE] at h
    exact Or.inl h

theorem mem_emit {e : EntityRef} {s : Scope} {f : Cb} {r : EntityRef}
    (h : e ∈ (emit s f r).1) : e = r := by
  unfold emit at h
  split at h <;> simpa using h

theorem walkObject_eq_gate (s : Scope) (path : String) (inv : Inventory) (f : Cb) :
    s.walkObjectM path (some inv) f =
      seqE (emit s f (.mk inv.ID path .Object (some s.root))) fun _ =>
        if OcflType.le s.desired.Type .Version then
          s.walkVersionsM inv (.mk inv.ID path .Object (some s.root)) f
        else ([], none) := rfl

theorem mem_emit' {e : EntityRef} {s : Scope} {f : Cb} {r : EntityRef}
    (h : e ∈ (emit s f r).1) : e = r ∧ s.contains r = true := by
  unfold emit at h
  split at h
  · next hc =>
    simp only [List.mem_singleton] at h
    exact ⟨h, hc⟩
  · simp at h

theorem contains_bare (root sf : EntityRef) (t : OcflType) (r : EntityRef)
    (hA : t ≠ .Any)
    (h : Scope.contains ⟨root, sf, .mk "" "" t none⟩ r = true) :
    r.Type = t ∨ (r.Type = sf.Type ∧ OcflType.le r.Type t = true) := by
  unfold Scope.contains at h
  simp only [EntityRef.Type] at h
  rw [if_neg (by simpa using hA)] at h
  by_cases h2 : r.Type = sf.Type
  · rw [if_neg (by simpa using h2)] at h
    simp only [Bool.and_eq_true] at h
    exact Or.inr ⟨h2, h.2⟩
  · rw [if_pos (by simpa using h2)] at h
    exact Or.inl (eq_of_beq h).symm

theorem mem_loopFiles {e : EntityRef} (s : Scope) (object version : EntityRef) :
    ∀ (files : List FileEntry) (f : Cb),
      e ∈ (loopFiles s object version files f).1 →
      ∃ fe, fe ∈ files ∧
        e = EntityRef.mk fe.LogicalPath (joinPath object.Addr fe.PhysicalPath)
              .File (some version) ∧
        s.contains e = true
  | [], f, h => by simp [loopFiles] at h
  | fe :: rest, f, h => by
    rw [loopFiles] at h
    rcases mem_seqE h with h1 | h1
    · obtain ⟨he, hc⟩ := mem_emit' h1
      exact ⟨fe, by simp, he, by rw [he]; exact hc⟩
    · obtain ⟨fe', hm, he, hc⟩ := mem_loopFiles s object version rest f h1
      exact ⟨fe', List.mem_cons_of_mem _ hm, he, hc⟩

theorem mem_loopVersions {e : EntityRef} (s : Scope) (inv : Inventory)
    (object : EntityRef) :
    ∀ (vids : List String) (f : Cb),
      e ∈ (loopVersions s inv object vids f).1 →
      ∃ vID, vID ∈ vids ∧
        ((e = EntityRef.mk vID (joinPath object.Addr vID) .Version (some object) ∧
          s.contains e = true) ∨
         (OcflType.le s.desired.Type .File = true ∧
          ∃ fe, fe ∈ (inv.Files vID).getD [] ∧
            e = EntityRef.mk fe.LogicalPath (joinPath object.Addr fe.PhysicalPath)
                  .File (some (EntityRef.mk vID (joinPath object.Addr vID)
                    .Version (some object))) ∧
            s.contains e = true))
  | [], f, h => by simp [loopVersions] at h
  | vID :: rest, f, h => by
    rw [loopVersions] at h
    rcases mem_seqE h with h1 | h2
    · obtain ⟨he, hc⟩ := mem_emit' h1
      exact ⟨vID, by simp, Or.inl ⟨he, by rw [he]; exact hc⟩⟩
    · rcases mem_seqE h2 with h3 | h4
      · split at h3
        · next hg =>
          obtain ⟨fe, hm, he, hc⟩ := mem_loopFiles s object _ _ f h3
          exact ⟨vID, by simp, Or.inr ⟨hg, fe, hm, he, hc⟩⟩
        · simp at h3
      · obtain ⟨v', hm, hrest⟩ := mem_loopVersions s inv object rest f h4
        exact ⟨v', List.mem_cons_of_mem _ hm, hrest⟩

theorem mem_walkVersionsM {e : EntityRef} (s : Scope) (inv : Inventory)
    (object : EntityRef) (f : Cb)
    (h : e ∈ (s.walkVersionsM inv object f).1) :
    ∃ vids, (∀ v, v ∈ vids → v ∈ inv.Versions) ∧
      e ∈ (loopVersions s inv object vids f).1 := by
  unfold Scope.walkVersionsM at h
  split at h
  · split at h
    · simp at h
    · next sv hsv =>
      split at h
      · next hhas =>
        refine ⟨[sv.ID], ?_, h⟩
        intro v hv
        rw [List.mem_singleton] at hv
        subst hv
        unfold hasVersion at hhas
        simpa using hhas
      · simp at h
  · exact ⟨inv.Versions, fun v hv => hv, h⟩

theorem mem_walkObjectM {e : EntityRef} (s : Scope) (path : String)
    (minv : Option Inventory) (f : Cb)
    (h : e ∈ (s.walkObjectM path minv f).1) :
    ∃ inv, minv = some inv ∧
      ((e = EntityRef.mk inv.ID path .Object (some s.root) ∧ s.contains e = true) ∨
       (OcflType.le s.desired.Type .Version = true ∧
        e ∈ (s.walkVersionsM inv
          (EntityRef.mk inv.ID path .Object (some s.root)) f).1)) := by
  cases minv with
  | none => simp [Scope.walkObjectM] at h
  | some inv =>
    rw [walkObject_eq_gate] at h
    rcases mem_seqE h with h1 | h1
    · obtain ⟨he, hc⟩ := mem_emit' h1
      exact ⟨inv, rfl, Or.inl ⟨he, by rw [he]; exact hc⟩⟩
    · split at h1
      · next hg => exact ⟨inv, rfl, Or.inr ⟨hg, h1⟩⟩
      · simp at h1

theorem mem_cbNode {e : EntityRef} (s : Scope) (f : Cb) (ospath : String)
    (k : NodeKind) (h : e ∈ (s.cbNode f ospath k).2.1) :
    (∃ minv, k = .objectRoot minv ∧ e ∈ (s.walkObjectM ospath minv f).1) ∨
    (e = EntityRef.mk (relID s.root.Addr ospath) ospath .Intermediate (some s.root) ∧
     s.contains (EntityRef.mk "" "" .Intermediate none) = true ∧
     (ospath != s.root.Addr) = true) := by
  cases k with
  | plainFile => simp [Scope.cbNode] at h
  | probeErr => simp [Scope.cbNode] at h
  | objectRoot minv =>
    exact Or.inl ⟨minv, rfl, by simpa [Scope.cbNode] using h⟩
  | dir b =>
    rw [Scope.cbNode] at h
    split at h
    · next hcond =>
      simp only [Bool.and_eq_true] at hcond
      rcases hf : f (EntityRef.mk (relID s.root.Addr ospath) ospath
          .Intermediate (some s.root)) with _ | e' <;>
        simp only [hf] at h <;> simp at h <;>
        exact Or.inr ⟨h, hcond.2, hcond.1⟩
    · simp at h

mutual

theorem mem_fsWalkTree {e : EntityRef} (cb : String → NodeKind → Bool × ERes) :
    ∀ (addr : String) (t : FsTree), e ∈ (fsWalkTree cb addr t).1 →
      ∃ a k ch, (a, FsTree.mk k ch) ∈ nodesOf addr t ∧ e ∈ (cb a k).2.1
  | addr, .mk k ch, h => by
    have hself : e ∈ (cb addr k).2.1 →
        ∃ a k' ch', (a, FsTree.mk k' ch') ∈ nodesOf addr (FsTree.mk k ch) ∧
          e ∈ (cb a k').2.1 :=
      fun hc => ⟨addr, k, ch, by rw [nodesOf]; exact List.mem_cons_self _ _, hc⟩
    have hsub : e ∈ (fsWalkForest cb addr ch).1 →
        ∃ a k' ch', (a, FsTree.mk k' ch') ∈ nodesOf addr (FsTree.mk k ch) ∧
          e ∈ (cb a k').2.1 := by
      intro h1
      obtain ⟨a, k', ch', hm, hc⟩ := mem_fsWalkForest cb addr ch h1
      exact ⟨a, k', ch', by rw [nodesOf]; exact List.mem_cons_of_mem _ hm, hc⟩
    rw [fsWalkTree] at h
    rcases hcb : cb addr k with ⟨flag, es, oe⟩
    cases oe with
    | some err =>
      simp only [hcb] at h
      exact hself (by rw [hcb]; exact h)
    | none =>
      simp only [hcb] at h
      cases flag with
      | true =>
        rw [if_pos rfl] at h
        exact hself (by rw [hcb]; exact h)
      | false =>
        rw [if_neg (by simp)] at h
        rcases k with _ | b | minv | _
        case dir =>
          cases b with
          | true => exact hself (by rw [hcb]; exact h)
          | false =>
            rcases List.mem_append.mp h with h1 | h1
            · exact hself (by rw [hcb]; exact h1)
            · exact hsub h1
        all_goals
          rcases List.mem_append.mp h with h1 | h1
          · exact hself (by rw [hcb]; exact h1)
          · exact hsub h1

theorem mem_fsWalkForest {e : EntityRef} (cb : String → NodeKind → Bool × ERes) :
    ∀ (addr : String) (ts : FsForest), e ∈ (fsWalkForest cb addr ts).1 →
      ∃ a k ch, (a, FsTree.mk k ch) ∈ nodesOfF addr ts ∧ e ∈ (cb a k).2.1
  | addr, .nil, h => by simp [fsWalkForest] at h
  | addr, .cons name t rest, h => by
    rw [fsWalkForest] at h
    rcases hw : fsWalkTree cb (joinPath addr name) t with ⟨es, oe⟩
    cases oe with
    | some err =>
      simp only [hw] at h
      obtain ⟨a, k, ch, hm, hc⟩ :=
        mem_fsWalkTree cb (joinPath addr name) t (by rw [hw]; exact h)
      exact ⟨a, k, ch, by rw [nodesOfF]; exact List.mem_append_left _ hm, hc⟩
    | none =>
      simp only [hw] at h
      rcases List.mem_append.mp h with h1 | h1
      · obtain ⟨a, k, ch, hm, hc⟩ :=
          mem_fsWalkTree cb (joinPath addr name) t (by rw [hw]; exact h1)
        exact ⟨a, k, ch, by rw [nodesOfF]; exact List.mem_append_left _ hm, hc⟩
      · obtain ⟨a, k, ch, hm, hc⟩ := mem_fsWalkForest cb addr rest h1
        exact ⟨a, k, ch, by rw [nodesOfF]; exact List.mem_append_right _ hm, hc⟩

end

theorem mem_walkM {e : EntityRef} (s : Scope) (L : Layout) (f : Cb)
    (h : e ∈ (s.walkM L f).1) :
    ∃ node, (if OcflType.ltc s.startFrom.Type .Object then
               findRoot s.startFrom .Object
             else Except.ok s.startFrom) = .ok node ∧
      ((e = node ∧ node.Type = .Root ∧ s.contains node = true) ∨
       ∃ t0 a k ch,
         findNode L.rootAddr L.tree
           (if node.Addr == "" then s.root.Addr else node.Addr) = some t0 ∧
         (a, FsTree.mk k ch) ∈
           nodesOf (if node.Addr == "" then s.root.Addr else node.Addr) t0 ∧
         e ∈ (s.cbNode f a k).2.1) := by
  unfold Scope.walkM at h
  split at h
  · simp at h
  · next node hnode =>
    refine ⟨node, hnode, ?_⟩
    rcases mem_seqE h with h1 | h1
    · split at h1
      · next hg =>
        simp only [Bool.and_eq_true] at hg
        simp only [List.mem_singleton] at h1
        exact Or.inl ⟨h1, eq_of_beq hg.1, hg.2⟩
      · simp at h1
    · split at h1
      case isTrue ha =>
        rw [if_pos ha]
        dsimp only at h1
        split at h1
        · simp at h1
        · next t0 ht0 =>
          obtain ⟨a, k, ch, hm, hc⟩ := mem_fsWalkTree _ _ _ h1
          exact Or.inr ⟨t0, a, k, ch, ht0, hm, hc⟩
      case isFalse ha =>
        rw [if_neg ha]
        dsimp only at h1
        split at h1
        · simp at h1
        · next t0 ht0 =>
          obtain ⟨a, k, ch, hm, hc⟩ := mem_fsWalkTree _ _ _ h1
          exact Or.inr ⟨t0, a, k, ch, ht0, hm, hc⟩

/-! ### Claim theorems -/

/-- Claim C7: for every EntityRef whose Parent chain is well formed
(following Parent links terminates at a Root-typed ref with nil parent),
`Coords` returns the IDs collected from the topmost non-Root ancestor
down to the entity itself, in root-to-leaf order and excluding the Root
itself. -/
theorem C7_coords : ∀ e : EntityRef, e.rootedChain = true → e.Coords = coordsSpec e
  | .mk i a t none, h => by
    have ht : t = .Root := eq_of_beq (by simpa [EntityRef.rootedChain] using h)
    subst ht
    simp [EntityRef.Coords, coordsSpec, EntityRef.chain, EntityRef.Type]
  | .mk i a t (some p), h => by
    rw [EntityRef.rootedChain] at h
    simp only [Bool.and_eq_true, bne_iff_ne, ne_eq] at h
    have ih := C7_coords p h.2
    simp [EntityRef.Coords, coordsSpec, EntityRef.chain, EntityRef.Type,
      EntityRef.ID, h.1, ih]

/-- Witness for C7 at a concrete File whose parents are a Version, an
Object and the storage Root. -/
theorem C7_coords_w :
    fileRefA.rootedChain = true ∧ fileRefA.Coords = coordsSpec fileRefA :=
  ⟨by decide, C7_coords fileRefA (by decide)⟩

/-- Claim C1: for every scope built by `newScope`, the containment
predicate equals the reference definition `containsSpec`: wildcard
desired matches everything; otherwise, in enumeration mode (candidate
type differing from the entry type), membership is equality of candidate
and desired types; otherwise the Parent chains of desired and candidate
are walked in lockstep while both have a parent, every paired ID must be
equal, and candidate.Type <= desired.Type in the entity-type order. -/
theorem C1_contains (under : EntityRef) (t : OcflType) (s : Scope) (r : EntityRef)
    (hs : newScope under t = .ok s) : s.contains r = containsSpec s r := by
  clear hs
  unfold Scope.contains containsSpec
  rw [lockstepIDs_eq]
  by_cases h1 : s.desired.Type = .Any
  · simp [h1]
  · by_cases h2 : r.Type = s.startFrom.Type <;> simp [h1, h2]

/-- Witness for C1 at a concrete scope and candidate. -/
theorem C1_contains_w :
    newScope rootRefA .File =
      .ok ⟨rootRefA, rootRefA, .mk "" "" .File none⟩ ∧
    Scope.contains ⟨rootRefA, rootRefA, .mk "" "" .File none⟩ fileRefA =
      containsSpec ⟨rootRefA, rootRefA, .mk "" "" .File none⟩ fileRefA :=
  ⟨rfl, C1_contains rootRefA .File _ fileRefA rfl⟩

/-- Claim C8: `newScope(under, t)` fails (with the root-not-found error)
exactly when no enclosing storage root resolves for `under`; on success
the scope's root is the resolved storage root, `startFrom` is `under`,
and `desired` is a bare ref of type `t` unless `under` already has type
`t`, in which case `desired` is `under` itself. -/
theorem C8_newScope (under : EntityRef) (t : OcflType) :
    (under.hasType .Root = false → newScope under t = .error .rootNotFound) ∧
    ∀ root, findRoot under .Root = .ok root →
      root.Type = .Root ∧
      newScope under t = .ok
        { root := root
          startFrom := under
          desired := if under.Type == t then under else .mk "" "" t none } := by
  constructor
  · intro h
    rw [newScope, findRoot_err_of_not_hasType under .Root h]
  · intro root h
    exact ⟨findRoot_ok_type under .Root root h, by rw [newScope, h]⟩

/-- Witness for C8 at a concrete Object entry. -/
theorem C8_newScope_w :
    findRoot objRefA .Root = .ok rootRefA ∧
    rootRefA.Type = .Root ∧
    newScope objRefA .Version = .ok ⟨rootRefA, objRefA, .mk "" "" .Version none⟩ :=
  ⟨rfl, ((C8_newScope objRefA .Version).2 rootRefA rfl).1,
    ((C8_newScope objRefA .Version).2 rootRefA rfl).2⟩

/-- Claim C10: in `walkVersions`, under the precondition that the entry
point has type Version or File and its chain is, or contains, a
Version-typed ref, the discarded `findRoot(startFrom, Version)` error is
unreachable and the narrowing proceeds with the resolved version's id;
without the chain precondition no guard exists and the nil dereference
fault is reached. -/
theorem C10_narrow (s : Scope)
    (h : s.startFrom.Type = .Version ∨ s.startFrom.Type = .File) :
    (s.startFrom.hasType .Version = true →
      ∃ v, findRoot s.startFrom .Version = .ok v ∧ v.Type = .Version ∧
        ∀ inv object f,
          s.walkVersionsM inv object f =
            if hasVersion inv v.ID then loopVersions s inv object [v.ID] f
            else ([], some (.versionNotFound v.ID object.ID))) ∧
    (s.startFrom.hasType .Version = false →
      ∀ inv object f, s.walkVersionsM inv object f = ([], some .nilDeref)) := by
  have hb : (s.startFrom.Type == .Version || s.startFrom.Type == .File) = true := by
    rcases h with h | h <;> simp [h]
  constructor
  · intro hh
    obtain ⟨v, hv⟩ := findRoot_of_hasType _ _ hh
    refine ⟨v, hv, findRoot_ok_type _ _ _ hv, fun inv object f => ?_⟩
    rw [Scope.walkVersionsM]
    simp only [hb, if_true, hv]
  · intro hh
    intro inv object f
    rw [Scope.walkVersionsM]
    simp only [hb, if_true, findRoot_err_of_not_hasType _ _ hh]

/-- Witness for C10 at a concrete File entry naming version `v9`. -/
theorem C10_narrow_w :
    (Scope.startFrom ⟨rootRefA, fileRefA9, fileRefA9⟩).Type = .File ∧
    (Scope.startFrom ⟨rootRefA, fileRefA9, fileRefA9⟩).hasType .Version = true ∧
    ∃ v, findRoot (Scope.startFrom ⟨rootRefA, fileRefA9, fileRefA9⟩) .Version = .ok v ∧
      v.Type = .Version ∧
      ∀ inv object f,
        Scope.walkVersionsM ⟨rootRefA, fileRefA9, fileRefA9⟩ inv object f =
          if hasVersion inv v.ID then
            loopVersions ⟨rootRefA, fileRefA9, fileRefA9⟩ inv object [v.ID] f
          else ([], some (.versionNotFound v.ID object.ID)) :=
  ⟨rfl, rfl, (C10_narrow ⟨rootRefA, fileRefA9, fileRefA9⟩ (Or.inr rfl)).1 rfl⟩

/-- Claim C6: after the manifest load and the Object report, the walk
descends into version enumeration exactly when the desired type is
Version or File (among the concrete, non-wildcard types); the gate is the
comparison `desired.Type <= Version` in the entity-type order; for
desired Root, Intermediate or Object the object's subtree is fully
processed there and no Version or File entity under it is visited. -/
theorem C6_gate (t : OcflType) (hA : t ≠ .Any) :
    (OcflType.le t .Version = true ↔ (t = .Version ∨ t = .File)) ∧
    (∀ (s : Scope) (path : String) (inv : Inventory) (f : Cb),
      s.desired.Type = t →
        s.walkObjectM path (some inv) f =
          seqE (emit s f (.mk inv.ID path .Object (some s.root))) fun _ =>
            if t = .Version ∨ t = .File then
              s.walkVersionsM inv (.mk inv.ID path .Object (some s.root)) f
            else ([], none)) ∧
    (∀ (s : Scope) (path : String) (inv : Inventory) (f : Cb),
      s.desired.Type = t → ¬(t = .Version ∨ t = .File) →
      ∀ e ∈ (s.walkObjectM path (some inv) f).1, e.Type = .Object) := by
  have hiff : (OcflType.le t .Version = true ↔ (t = .Version ∨ t = .File)) := by
    cases t
    · exact absurd rfl hA
    all_goals simp [OcflType.le, OcflType.code]
  have heq : ∀ (s : Scope) (path : String) (inv : Inventory) (f : Cb),
      s.desired.Type = t →
        s.walkObjectM path (some inv) f =
          seqE (emit s f (.mk inv.ID path .Object (some s.root))) fun _ =>
            if t = .Version ∨ t = .File then
              s.walkVersionsM inv (.mk inv.ID path .Object (some s.root)) f
            else ([], none) := by
    intro s path inv f hd
    rw [walkObject_eq_gate, hd]
    congr 1
    funext u
    by_cases hg : t = .Version ∨ t = .File
    · simp [hg, hiff.mpr hg]
    · have : OcflType.le t .Version ≠ true := fun hc => hg (hiff.mp hc)
      simp [hg, this]
  refine ⟨hiff, heq, ?_⟩
  intro s path inv f hd hng e he
  rw [heq s path inv f hd] at he
  rcases mem_seqE he with h1 | h1
  · rw [mem_emit h1]
    rfl
  · simp [hng] at h1

theorem findRoot_self : ∀ (r : EntityRef) (t : OcflType), r.Type = t →
    findRoot r t = .ok r
  | .mk i a t' p, t, h => by
    rw [findRoot.eq_def]
    dsimp only
    rw [if_pos (by simpa [EntityRef.Type] using h)]

theorem contains_enum_false (s : Scope) (r : EntityRef)
    (hA : s.desired.Type ≠ .Any) (hne : r.Type ≠ s.startFrom.Type)
    (hd : s.desired.Type ≠ r.Type) : s.contains r = false := by
  unfold Scope.contains
  rw [if_neg (by simpa using hA), if_pos (by simpa using hne)]
  simpa using hd

/-- Claim C9: an enumeration walk with desired type Version (an entry
point not itself of type Version) passes only Version-typed entities to
the callback — never an Object, Intermediate, Root or File entity, at any
callback invocation site of either phase. -/
theorem C9_version_enum (L : Layout) (under : EntityRef) (s : Scope) (f : Cb)
    (hu : under.Type ≠ .Version) (hns : newScope under .Version = .ok s) :
    ∀ e ∈ (s.walkM L f).1, e.Type = .Version := by
  intro e he
  unfold newScope at hns
  split at hns
  · exact absurd hns (by simp)
  · next root hroot =>
    injection hns with hs
    rw [if_neg (by simpa using hu)] at hs
    subst hs
    obtain ⟨node, hnode, hcase⟩ := mem_walkM _ L f he
    rcases hcase with ⟨he1, hT, hc⟩ | ⟨t0, a, k, ch, _, _, hc⟩
    · rcases contains_bare root under .Version node (by decide) hc with d1 | ⟨_, hle⟩
      · rw [hT] at d1
        exact absurd d1 (by decide)
      · rw [hT] at hle
        exact absurd hle (by decide)
    · rcases mem_cbNode _ f a k hc with ⟨minv, hk, hw⟩ | ⟨heq, hcb, _⟩
      · obtain ⟨inv, _, hcase2⟩ := mem_walkObjectM _ a minv f hw
        rcases hcase2 with ⟨he2, hc2⟩ | ⟨hgate, hv⟩
        · rw [he2] at hc2
          rcases contains_bare root under .Version _ (by decide) hc2 with d1 | ⟨_, hle⟩
          · exact absurd d1 (show ¬(OcflType.Object = OcflType.Version) by decide)
          · exact absurd hle (show ¬(OcflType.le .Object .Version = true) by decide)
        · obtain ⟨vids, _, hlv⟩ := mem_walkVersionsM _ inv _ f hv
          obtain ⟨vID, _, hcase3⟩ := mem_loopVersions _ inv _ vids f hlv
          rcases hcase3 with ⟨he3, _⟩ | ⟨hgF, _⟩
          · rw [he3]
            rfl
          · exact absurd hgF (show ¬(OcflType.le .Version .File = true) by decide)
      · rcases contains_bare root under .Version _ (by decide) hcb with d1 | ⟨_, hle⟩
        · exact absurd d1 (by decide)
        · exact absurd hle (by decide)

/-- Witness for C9: enumerating `layA` for versions from its root yields
only Version entities. -/
theorem C9_version_enum_w :
    rootRefA.Type ≠ .Version ∧
    newScope rootRefA .Version = .ok ⟨rootRefA, rootRefA, .mk "" "" .Version none⟩ ∧
    ∀ e ∈ (Scope.walkM ⟨rootRefA, rootRefA, .mk "" "" .Version none⟩ layA cbOk).1,
      e.Type = .Version :=
  ⟨by decide, rfl, C9_version_enum layA rootRefA _ cbOk (by decide) rfl⟩

theorem cbNode_root_desired (s : Scope) (f : Cb)
    (hd : s.desired.Type = .Root) (hsf : s.startFrom.Type = .Root)
    (ospath : String) (k : NodeKind) (hwf : wfKind k = true) :
    (s.cbNode f ospath k).2 = ([], none) := by
  cases k with
  | plainFile => rfl
  | probeErr => simp [wfKind] at hwf
  | dir b =>
    rw [Scope.cbNode]
    rw [if_neg ?_]
    · intro hcond
      rw [Bool.and_eq_true] at hcond
      have := contains_enum_false s (EntityRef.mk "" "" .Intermediate none)
        (by rw [hd]; decide) (by rw [hsf]; decide) (by rw [hd]; decide)
      rw [this] at hcond
      exact Bool.false_ne_true hcond.2
  | objectRoot minv =>
    rcases minv with _ | inv
    · simp [wfKind] at hwf
    · show s.walkObjectM ospath (some inv) f = ([], none)
      rw [walkObject_eq_gate]
      have hobj : s.contains (.mk inv.ID ospath .Object (some s.root)) = false :=
        contains_enum_false s (.mk inv.ID ospath .Object (some s.root))
          (by rw [hd]; decide)
          (by rw [hsf]; exact (show ¬(OcflType.Object = OcflType.Root) by decide))
          (by rw [hd]; exact (show ¬(OcflType.Root = OcflType.Object) by decide))
      rw [emit, if_neg (by simp [hobj])]
      rw [hd]
      simp [seqE, show OcflType.le .Root .Version = false from rfl]

mutual

theorem fsWalkTree_root_desired (s : Scope) (f : Cb) (hd : s.desired.Type = .Root)
    (hsf : s.startFrom.Type = .Root) :
    ∀ (addr : String) (t : FsTree), wfTree t = true →
      fsWalkTree (s.cbNode f) addr t = ([], none)
  | addr, .mk k ch, hwf => by
    rw [wfTree] at hwf
    rw [Bool.and_eq_true] at hwf
    rw [fsWalkTree]
    have h2 := cbNode_root_desired s f hd hsf addr k hwf.1
    simp only [h2]
    by_cases hflag : (s.cbNode f addr k).1 = true
    · simp [hflag]
    · simp only [hflag]
      rcases k with _ | b | minv | _
      · simp [fsWalkForest_root_desired s f hd hsf addr ch hwf.2]
      · have hb : b = false := by simpa [wfKind] using hwf.1
        subst hb
        simp [fsWalkForest_root_desired s f hd hsf addr ch hwf.2]
      · simp [fsWalkForest_root_desired s f hd hsf addr ch hwf.2]
      · simp [fsWalkForest_root_desired s f hd hsf addr ch hwf.2]

theorem fsWalkForest_root_desired (s : Scope) (f : Cb) (hd : s.desired.Type = .Root)
    (hsf : s.startFrom.Type = .Root) :
    ∀ (addr : String) (ts : FsForest), wfForest ts = true →
      fsWalkForest (s.cbNode f) addr ts = ([], none)
  | addr, .nil, _ => rfl
  | addr, .cons name t rest, hwf => by
    rw [wfForest] at hwf
    rw [Bool.and_eq_true] at hwf
    rw [fsWalkForest]
    rw [fsWalkTree_root_desired s f hd hsf (joinPath addr name) t hwf.1]
    simp [fsWalkForest_root_desired s f hd hsf addr rest hwf.2]

end

/-- Claim C5: a walk whose entry point and desired type are both Root
reports exactly one entity — the storage root itself — and nothing else:
on a well-formed layout the walk succeeds with the single report and no
Intermediate, Object, Version or File entity is ever passed to the
callback. -/
theorem C5_root_idem (L : Layout) (under : EntityRef) (s : Scope) (f : Cb)
    (t0 : FsTree)
    (hT : under.Type = .Root)
    (hns : newScope under .Root = .ok s)
    (hfn : findNode L.rootAddr L.tree under.Addr = some t0)
    (hwf : wfTree t0 = true)
    (hf : f under = none) :
    s.walkM L f = ([under], none) := by
  rw [newScope, findRoot_self under .Root hT] at hns
  rw [if_pos (by simpa using hT)] at hns
  injection hns with hs
  subst hs
  have hcont : Scope.contains ⟨under, under, under⟩ under = true := by
    unfold Scope.contains
    dsimp only
    rw [if_neg (by rw [hT]; decide), if_neg (by simp)]
    rw [lockstepIDs_refl, hT]
    decide
  unfold Scope.walkM
  dsimp only
  rw [if_neg (by rw [hT]; decide)]
  dsimp only
  rw [if_pos (by rw [hT, hcont]; decide)]
  rw [hf]
  simp only [seqE, ite_self]
  rw [hfn]
  dsimp only
  rw [fsWalkTree_root_desired _ f hT hT under.Addr t0 hwf]
  rfl

/-- Witness for C5 on the concrete layout `layA`. -/
theorem C5_root_idem_w :
    rootRefA.Type = .Root ∧
    newScope rootRefA .Root = .ok ⟨rootRefA, rootRefA, rootRefA⟩ ∧
    findNode layA.rootAddr layA.tree rootRefA.Addr = some layA.tree ∧
    wfTree layA.tree = true ∧
    cbOk rootRefA = none ∧
    Scope.walkM ⟨rootRefA, rootRefA, rootRefA⟩ layA cbOk = ([rootRefA], none) :=
  ⟨rfl, rfl, rfl, rfl, rfl,
    C5_root_idem layA rootRefA _ cbOk layA.tree rfl rfl rfl rfl rfl⟩

theorem fsWalkTree_objectRoot (s : Scope) (f : Cb) (addr : String)
    (minv : Option Inventory) (ch : FsForest) :
    fsWalkTree (s.cbNode f) addr (.mk (.objectRoot minv) ch) =
      s.walkObjectM addr minv f := by
  rw [fsWalkTree]
  have hc : s.cbNode f addr (.objectRoot minv) = (true, s.walkObjectM addr minv f) := rfl
  rcases hw : s.walkObjectM addr minv f with ⟨es, oe⟩
  simp only [hc, hw]
  cases oe <;> simp

/-- Counterexample to C3 as stated: a walk whose entry point is a File
ref naming the nonexistent version `v9` of `layA`'s object, but whose
desired type is Object, does not fail — version enumeration is gated off,
the version-existence check never runs, and the walk succeeds after
reporting the object. -/
theorem C3_counterexample :
    fileRefA9.Type = .File ∧
    hasVersion invA "v9" = false ∧
    newScope fileRefA9 .Object =
      .ok ⟨rootRefA, fileRefA9, .mk "" "" .Object none⟩ ∧
    Scope.walkM ⟨rootRefA, fileRefA9, .mk "" "" .Object none⟩ layA cbOk =
      ([objRefA], none) :=
  ⟨rfl, rfl, rfl, by decide⟩

/-- Claim C3 as amended: for every walk whose entry point has type
Version or File and whose desired type admits version enumeration
(`desired.Type <= Version`, that is Any, Version or File), if the version
identifier derived from the entry point's coordinates is absent from the
object's manifest the walk fails with the version-not-found error naming
that identifier and the object identifier, with no Version or File entity
reported before the failure; if the identifier is present the version set
iterated is restricted to exactly that one identifier. -/
theorem C3_missing_version (L : Layout) (s : Scope) (f : Cb) (ob : EntityRef)
    (inv : Inventory) (ch : FsForest) (sv : EntityRef)
    (hsf : s.startFrom.Type = .Version ∨ s.startFrom.Type = .File)
    (hgate : OcflType.le s.desired.Type .Version = true)
    (hob : findRoot s.startFrom .Object = .ok ob)
    (haddr : ob.Addr ≠ "")
    (hfn : findNode L.rootAddr L.tree ob.Addr = some (.mk (.objectRoot (some inv)) ch))
    (hsv : findRoot s.startFrom .Version = .ok sv)
    (hf : ∀ r, f r = none) :
    (hasVersion inv sv.ID = false →
      s.walkM L f =
        ((if s.contains (.mk inv.ID ob.Addr .Object (some s.root)) then
            [EntityRef.mk inv.ID ob.Addr .Object (some s.root)]
          else []),
          some (.versionNotFound sv.ID inv.ID)) ∧
      ∀ e ∈ (s.walkM L f).1, e.Type ≠ .Version ∧ e.Type ≠ .File) ∧
    (hasVersion inv sv.ID = true →
      s.walkM L f =
        seqE (emit s f (.mk inv.ID ob.Addr .Object (some s.root))) fun _ =>
          loopVersions s inv (.mk inv.ID ob.Addr .Object (some s.root)) [sv.ID] f) := by
  have hObType : ob.Type = .Object := findRoot_ok_type _ _ _ hob
  have hltc : OcflType.ltc s.startFrom.Type .Object = true := by
    rcases hsf with h | h <;> rw [h] <;> decide
  have hcond : (s.startFrom.Type == .Version || s.startFrom.Type == .File) = true := by
    rcases hsf with h | h <;> simp [h]
  have hmain : s.walkM L f = s.walkObjectM ob.Addr (some inv) f := by
    unfold Scope.walkM
    rw [if_pos hltc, hob]
    dsimp only
    rw [if_neg (by rw [hObType]; simp)]
    simp only [seqE]
    rw [if_neg (by simpa using haddr)]
    rw [hfn]
    dsimp only
    rw [fsWalkTree_objectRoot]
    simp
  have hwv : ∀ hv : Bool, hasVersion inv sv.ID = hv →
      s.walkVersionsM inv (.mk inv.ID ob.Addr .Object (some s.root)) f =
        (if hv then
          loopVersions s inv (.mk inv.ID ob.Addr .Object (some s.root)) [sv.ID] f
        else ([], some (.versionNotFound sv.ID inv.ID))) := by
    intro hv hhv
    unfold Scope.walkVersionsM
    rw [if_pos hcond, hsv]
    dsimp only
    cases hv with
    | true =>
      rw [if_pos hhv]
      simp
    | false =>
      rw [if_neg (by simp [hhv])]
      simp [EntityRef.ID]
  constructor
  · intro hnv
    have heq : s.walkM L f =
        ((if s.contains (.mk inv.ID ob.Addr .Object (some s.root)) then
            [EntityRef.mk inv.ID ob.Addr .Object (some s.root)]
          else []),
          some (.versionNotFound sv.ID inv.ID)) := by
      rw [hmain, walkObject_eq_gate, if_pos hgate]
      rw [hwv false hnv]
      unfold emit
      split
      · next hcont =>
        rw [hf]
        simp [seqE, hcont]
      · next hcont =>
        simp [seqE]
    refine ⟨heq, ?_⟩
    intro e he
    rw [heq] at he
    split at he
    · simp only [List.mem_singleton] at he
      rw [he]
      exact ⟨show ¬(OcflType.Object = OcflType.Version) by decide,
        show ¬(OcflType.Object = OcflType.File) by decide⟩
    · simp at he
  · intro htv
    rw [hmain, walkObject_eq_gate, if_pos hgate]
    rw [hwv true htv]
    simp

/-- Witness for the amended C3 at a File entry naming the nonexistent
version `v9`: the walk fails with the version-not-found error naming
both identifiers and reports nothing. -/
theorem C3_missing_version_w :
    (Scope.startFrom ⟨rootRefA, fileRefA9, fileRefA9⟩).Type = .File ∧
    hasVersion invA "v9" = false ∧
    (Scope.walkM ⟨rootRefA, fileRefA9, fileRefA9⟩ layA cbOk =
        ((if Scope.contains ⟨rootRefA, fileRefA9, fileRefA9⟩
              (.mk invA.ID objRefA.Addr .Object (some rootRefA)) then
            [EntityRef.mk invA.ID objRefA.Addr .Object (some rootRefA)]
          else []),
          some (.versionNotFound "v9" invA.ID)) ∧
      ∀ e ∈ (Scope.walkM ⟨rootRefA, fileRefA9, fileRefA9⟩ layA cbOk).1,
        e.Type ≠ .Version ∧ e.Type ≠ .File) :=
  ⟨rfl, rfl,
    (C3_missing_version layA ⟨rootRefA, fileRefA9, fileRefA9⟩ cbOk objRefA invA
      .nil verRefA9 (Or.inr rfl) rfl rfl (by decide) rfl rfl (fun _ => rfl)).1 rfl⟩

theorem seqE_assoc (a : ERes) (b c : Unit → ERes) :
    seqE (seqE a b) c = seqE a fun _ => seqE (b ()) c := by
  rcases a with ⟨es, oe⟩
  cases oe
  · rcases hb : b () with ⟨es2, oe2⟩
    cases oe2 <;> simp [seqE, hb]
  · simp [seqE]

theorem runEvents_append (f : Cb) : ∀ (xs ys : List WEvent),
    runEvents f (xs ++ ys) = seqE (runEvents f xs) fun _ => runEvents f ys
  | [], ys => by simp [runEvents, seqE]
  | .fail e :: xs, ys => by simp [runEvents, seqE]
  | .report r :: xs, ys => by
    rw [List.cons_append, runEvents, runEvents]
    cases hf : f r with
    | some e => simp [seqE]
    | none =>
      rw [runEvents_append f xs ys]
      rcases hx : runEvents f xs with ⟨es, oe⟩
      cases oe <;> simp [seqE]

theorem runEvents_emitEv (f : Cb) (s : Scope) (r : EntityRef) :
    runEvents f (emitEv s r) = emit s f r := by
  unfold emitEv emit
  split
  · cases hf : f r <;> simp [runEvents, hf]
  · simp [runEvents]

theorem loopFiles_ev (s : Scope) (object version : EntityRef) (f : Cb) :
    ∀ files, loopFiles s object version files f =
      runEvents f (loopFilesEv s object version files)
  | [] => by simp [loopFiles, loopFilesEv, runEvents]
  | fe :: rest => by
    rw [loopFiles, loopFilesEv, runEvents_append, runEvents_emitEv]
    congr 1
    funext u
    exact loopFiles_ev s object version f rest

theorem loopVersions_ev (s : Scope) (inv : Inventory) (object : EntityRef) (f : Cb) :
    ∀ vids, loopVersions s inv object vids f =
      runEvents f (loopVersionsEv s inv object vids)
  | [] => by simp [loopVersions, loopVersionsEv, runEvents]
  | vID :: rest => by
    rw [loopVersions, loopVersionsEv, runEvents_append, runEvents_append,
      runEvents_emitEv, seqE_assoc]
    congr 1
    funext u
    congr 1
    · by_cases hg : OcflType.le s.desired.Type .File = true
      · rw [if_pos hg, if_pos hg]
        exact loopFiles_ev s object _ f _
      · rw [if_neg hg, if_neg hg]
        rfl
    · funext u2
      exact loopVersions_ev s inv object f rest

theorem walkVersionsM_ev (s : Scope) (inv : Inventory) (object : EntityRef) (f : Cb) :
    s.walkVersionsM inv object f = runEvents f (walkVersionsEv s inv object) := by
  unfold Scope.walkVersionsM walkVersionsEv
  split
  · split
    · rfl
    · split
      · exact loopVersions_ev s inv object f _
      · rfl
  · exact loopVersions_ev s inv object f _

theorem walkObjectM_ev (s : Scope) (path : String) (minv : Option Inventory) (f : Cb) :
    s.walkObjectM path minv f = runEvents f (walkObjectEv s path minv) := by
  cases minv with
  | none => rfl
  | some inv =>
    rw [walkObject_eq_gate]
    unfold walkObjectEv
    dsimp only
    rw [runEvents_append, runEvents_emitEv]
    congr 1
    funext u
    by_cases hg : OcflType.le s.desired.Type .Version = true
    · rw [if_pos hg, if_pos hg]
      exact walkVersionsM_ev s inv _ f
    · rw [if_neg hg, if_neg hg]
      rfl

mutual

theorem fsWalkTree_ev (s : Scope) (f : Cb) :
    ∀ (addr : String) (t : FsTree),
      fsWalkTree (s.cbNode f) addr t = runEvents f (fsWalkTreeEv s addr t)
  | addr, .mk k ch => by
    cases k with
    | plainFile => rfl
    | probeErr => rfl
    | objectRoot minv =>
      rw [fsWalkTree_objectRoot, walkObjectM_ev, fsWalkTreeEv]
      dsimp only [cbNodeEv]
      rw [List.append_nil]
      all_goals exact fun h => absurd h (by simp)
    | dir b =>
      have hforest := fsWalkForest_ev s f addr ch
      cases b with
      | true =>
        rw [fsWalkTree, fsWalkTreeEv]
        simp only [Scope.cbNode, cbNodeEv]
        by_cases hcond : ((addr != s.root.Addr) &&
            s.contains (.mk "" "" .Intermediate none)) = true
        · rw [if_pos hcond, if_pos hcond]
          cases hf : f (.mk (relID s.root.Addr addr) addr .Intermediate (some s.root)) with
          | some e => simp [runEvents, hf]
          | none => simp [runEvents, hf]
        · rw [if_neg hcond, if_neg hcond]
          simp [runEvents]
      | false =>
        rw [fsWalkTree, fsWalkTreeEv]
        simp only [Scope.cbNode, cbNodeEv]
        by_cases hcond : ((addr != s.root.Addr) &&
            s.contains (.mk "" "" .Intermediate none)) = true
        · rw [if_pos hcond, if_pos hcond]
          cases hf : f (.mk (relID s.root.Addr addr) addr .Intermediate (some s.root)) with
          | some e => simp [runEvents, hf]
          | none => simp [runEvents, hf, hforest]
        · rw [if_neg hcond, if_neg hcond]
          simp [runEvents, hforest]

theorem fsWalkForest_ev (s : Scope) (f : Cb) :
    ∀ (addr : String) (ts : FsForest),
      fsWalkForest (s.cbNode f) addr ts = runEvents f (fsWalkForestEv s addr ts)
  | addr, .nil => rfl
  | addr, .cons name t rest => by
    rw [fsWalkForest, fsWalkForestEv, runEvents_append]
    rw [← fsWalkTree_ev s f (joinPath addr name) t]
    rw [← fsWalkForest_ev s f addr rest]
    rcases hx : fsWalkTree (s.cbNode f) (joinPath addr name) t with ⟨es, oe⟩
    cases oe <;> simp [seqE]

end

theorem loopVersions_scrub (s : Scope) (inv : Inventory) (object : EntityRef)
    (f : Cb) :
    ∀ vids, loopVersions s (scrubFiles inv) object vids f =
      loopVersions s inv object vids f
  | [] => rfl
  | vID :: rest => by
    rw [loopVersions, loopVersions]
    congr 1
    funext u
    congr 1
    funext u2
    exact loopVersions_scrub s inv object f rest

/-- Counterexample to C4 as stated: on `layB` the file-listing accessor
fails for version `v1`, yet a wildcard walk reports the root, the object
and the version and returns no error: the error of the version
file-listing accessor is silently discarded — the version is yielded
with zero files — instead of stopping the walk and being propagated. -/
theorem C4_counterexample :
    invB.Files "v1" = none ∧
    newScope rootRefA .Any = .ok ⟨rootRefA, rootRefA, .mk "" "" .Any none⟩ ∧
    Scope.walkM ⟨rootRefA, rootRefA, .mk "" "" .Any none⟩ layB cbOk =
      ([rootRefA, objRefB, verRefB1], none) :=
  ⟨rfl, rfl, by decide⟩

/-- Claim C4 as amended: the walk equals the truncation, at the first
error, of its straight-line attempted event stream — so the first error
from the caller's callback, the root/object probe, the manifest load, the
version-existence check or directory access stops the entire walk, is
propagated to the caller, and nothing is reported past it — except that
the error of the version file-listing accessor is not an event at all:
it is discarded, the failed listing is treated as empty (the version is
yielded with zero files), and traversal continues, so replacing every
failing listing by an empty successful one leaves every walk unchanged. -/
theorem C4_propagation :
    (∀ (s : Scope) (L : Layout) (f : Cb),
      s.walkM L f = runEvents f (walkEv s L)) ∧
    (∀ (s : Scope) (inv : Inventory) (object : EntityRef) (f : Cb),
      s.walkVersionsM (scrubFiles inv) object f = s.walkVersionsM inv object f) := by
  constructor
  · intro s L f
    unfold Scope.walkM walkEv
    split
    · rfl
    · next node hnode =>
      rw [runEvents_append]
      congr 1
      · by_cases hg : (node.Type == .Root && s.contains node) = true
        · rw [if_pos hg, if_pos hg]
          cases hf : f node <;> simp [runEvents, hf]
        · rw [if_neg hg, if_neg hg]
          rfl
      · funext u
        dsimp only
        split
        · rfl
        · next t0 ht0 => exact fsWalkTree_ev s f _ t0
  · intro s inv object f
    unfold Scope.walkVersionsM
    split
    · split
      · rfl
      · next sv hsv =>
        rw [show hasVersion (scrubFiles inv) sv.ID = hasVersion inv sv.ID from rfl]
        split
        · exact loopVersions_scrub s inv object f _
        · rfl
    · exact loopVersions_scrub s inv object f _

theorem joinPath_ne_empty (a b : String) : joinPath a b ≠ "" := by
  intro h
  have h0 : (joinPath a b).length = 0 := by rw [h]; rfl
  rw [joinPath] at h0
  simp [String.length_append] at h0
  exact absurd h0.1.2 (by decide)

mutual

theorem nodesOf_addr_ne : ∀ (base : String) (t : FsTree), base ≠ "" →
    ∀ x ∈ nodesOf base t, x.1 ≠ ""
  | base, .mk k ch, hb, x, hx => by
    rw [nodesOf] at hx
    rcases List.mem_cons.mp hx with h1 | h1
    · rw [h1]
      exact hb
    · exact nodesOfF_addr_ne base ch x h1

theorem nodesOfF_addr_ne : ∀ (base : String) (ch : FsForest),
    ∀ x ∈ nodesOfF base ch, x.1 ≠ ""
  | base, .nil, x, hx => by simp [nodesOfF] at hx
  | base, .cons name t rest, x, hx => by
    rw [nodesOfF] at hx
    rcases List.mem_append.mp hx with h1 | h1
    · exact nodesOf_addr_ne (joinPath base name) t (joinPath_ne_empty base name) x h1
    · exact nodesOfF_addr_ne base rest x h1

end

mutual

theorem findNode_sub : ∀ (base : String) (t : FsTree) (addr : String) (t' : FsTree),
    findNode base t addr = some t' →
    ∀ x ∈ nodesOf addr t', x ∈ nodesOf base t
  | base, .mk k ch, addr, t', hf, x, hx => by
    rw [findNode] at hf
    split at hf
    · next hb =>
      injection hf with hf2
      subst hf2
      subst hb
      exact hx
    · rw [nodesOf]
      exact List.mem_cons_of_mem _ (findNodeF_sub base ch addr t' hf x hx)

theorem findNodeF_sub : ∀ (base : String) (ch : FsForest) (addr : String) (t' : FsTree),
    findNodeF base ch addr = some t' →
    ∀ x ∈ nodesOf addr t', x ∈ nodesOfF base ch
  | base, .nil, addr, t', hf, x, hx => by simp [findNodeF] at hf
  | base, .cons name t rest, addr, t', hf, x, hx => by
    rw [findNodeF] at hf
    split at hf
    · next r hr =>
      injection hf with hf2
      rw [nodesOfF]
      exact List.mem_append_left _
        (findNode_sub (joinPath base name) t addr t' (hf2 ▸ hr) x hx)
    · rw [nodesOfF]
      exact List.mem_append_right _ (findNodeF_sub base rest addr t' hf x hx)

end

mutual

theorem findNode_eq_find : ∀ (base : String) (t : FsTree) (addr : String),
    findNode base t addr =
      ((nodesOf base t).find? fun x => x.1 == addr).map (·.2)
  | base, .mk k ch, addr => by
    rw [findNode, nodesOf, List.find?]
    by_cases hb : base = addr
    · rw [if_pos hb]
      have hp : ((base, FsTree.mk k ch).1 == addr) = true := by simpa using hb
      rw [hp]
      rfl
    · rw [if_neg hb]
      have hp : ((base, FsTree.mk k ch).1 == addr) = false := by simpa using hb
      rw [hp]
      dsimp only
      exact findNodeF_eq_find base ch addr

theorem findNodeF_eq_find : ∀ (base : String) (ch : FsForest) (addr : String),
    findNodeF base ch addr =
      ((nodesOfF base ch).find? fun x => x.1 == addr).map (·.2)
  | base, .nil, addr => rfl
  | base, .cons name t rest, addr => by
    rw [findNodeF, nodesOfF, List.find?_append]
    rw [findNode_eq_find (joinPath base name) t addr]
    rw [findNodeF_eq_find base rest addr]
    rcases hfind : (nodesOf (joinPath base name) t).find? (fun x => x.1 == addr)
      with _ | y <;> simp [hfind, Option.or]

end

theorem find?_key_of_nodup : ∀ (l : List (String × FsTree)) (p : String) (n : FsTree),
    nodupKeys (l.map (·.1)) = true → (p, n) ∈ l →
    (l.find? fun x => x.1 == p) = some (p, n)
  | [], p, n, _, hm => by simp at hm
  | (q, m) :: l, p, n, hnd, hm => by
    rw [List.map_cons, nodupKeys, Bool.and_eq_true] at hnd
    rcases List.mem_cons.mp hm with h1 | h1
    · rw [List.find?]
      have hqp : ((q, m).1 == p) = true := by
        injection h1 with h2
        simp [h2.symm]
      rw [hqp, h1]
    · have hne : q ≠ p := by
        intro hqp
        subst hqp
        have hcontains : (List.map (fun x => x.1) l).contains q = true := by
          simpa using List.mem_map_of_mem (fun x => x.1) h1
        simp [hcontains] at hnd
        exact hnd.1 n h1
      rw [List.find?]
      have hqp : ((q, m).1 == p) = false := by simpa using hne
      rw [hqp]
      exact find?_key_of_nodup l p n hnd.2 h1

theorem findRoot_fileRefOf_root (root : EntityRef) (p : String) (inv : Inventory)
    (vID : String) (fe : FileEntry) (hroot : root.Type = .Root) :
    findRoot (fileRefOf root p inv vID fe) .Root = .ok root := by
  unfold fileRefOf
  rw [findRoot.eq_def]
  dsimp only
  rw [if_neg (by decide)]
  rw [findRoot.eq_def]
  dsimp only
  rw [if_neg (by decide)]
  rw [findRoot.eq_def]
  dsimp only
  rw [if_neg (by decide)]
  exact findRoot_self root .Root hroot

theorem findRoot_fileRefOf_object (root : EntityRef) (p : String) (inv : Inventory)
    (vID : String) (fe : FileEntry) :
    findRoot (fileRefOf root p inv vID fe) .Object =
      .ok (.mk inv.ID p .Object (some root)) := by
  unfold fileRefOf
  rw [findRoot.eq_def]
  dsimp only
  rw [if_neg (by decide)]
  rw [findRoot.eq_def]
  dsimp only
  rw [if_neg (by decide)]
  rw [findRoot.eq_def]
  dsimp only
  rw [if_pos (by decide)]

theorem findRoot_fileRefOf_version (root : EntityRef) (p : String) (inv : Inventory)
    (vID : String) (fe : FileEntry) :
    findRoot (fileRefOf root p inv vID fe) .Version =
      .ok (.mk vID (joinPath p vID) .Version
        (some (.mk inv.ID p .Object (some root)))) := by
  unfold fileRefOf
  rw [findRoot.eq_def]
  dsimp only
  rw [if_neg (by decide)]
  rw [findRoot.eq_def]
  dsimp only
  rw [if_pos (by decide)]

theorem contains_resolve_file (root : EntityRef) (p : String) (inv : Inventory)
    (vID : String) (fe fe' : FileEntry) :
    Scope.contains
        ⟨root, fileRefOf root p inv vID fe, fileRefOf root p inv vID fe⟩
        (.mk fe'.LogicalPath (joinPath p fe'.PhysicalPath) .File
          (some (.mk vID (joinPath p vID) .Version
            (some (.mk inv.ID p .Object (some root)))))) =
      (fe.LogicalPath == fe'.LogicalPath) := by
  unfold Scope.contains
  dsimp only [fileRefOf, EntityRef.Type]
  rw [if_neg (by decide), if_neg (by decide)]
  rw [show OcflType.le .File .File = true from rfl, Bool.and_true]
  rw [lockstepIDs]
  rw [lockstepIDs_refl]
  rw [Bool.and_true]

theorem loopFiles_resolve_none (root : EntityRef) (p : String) (inv : Inventory)
    (vID : String) (fe : FileEntry) (f : Cb) :
    ∀ files, (∀ fe' ∈ files, fe'.LogicalPath ≠ fe.LogicalPath) →
      loopFiles ⟨root, fileRefOf root p inv vID fe, fileRefOf root p inv vID fe⟩
        (.mk inv.ID p .Object (some root))
        (.mk vID (joinPath p vID) .Version (some (.mk inv.ID p .Object (some root))))
        files f =
      ([], none)
  | [], _ => rfl
  | fe' :: rest, hno => by
    rw [loopFiles]
    have hc : Scope.contains
        ⟨root, fileRefOf root p inv vID fe, fileRefOf root p inv vID fe⟩
        (.mk fe'.LogicalPath
          (joinPath (EntityRef.mk inv.ID p .Object (some root)).Addr fe'.PhysicalPath)
          .File
          (some (.mk vID (joinPath p vID) .Version
            (some (.mk inv.ID p .Object (some root)))))) = false := by
      rw [show (EntityRef.mk inv.ID p .Object (some root)).Addr = p from rfl]
      rw [contains_resolve_file]
      simp
      exact fun hcl => (hno fe' (by simp) hcl.symm)
    rw [emit, if_neg (by simp [hc])]
    rw [show seqE ([], none) = fun b => ((b ()).1, (b ()).2) from rfl]
    dsimp only
    rw [loopFiles_resolve_none root p inv vID fe f rest
      (fun x hx => hno x (List.mem_cons_of_mem _ hx))]

theorem loopFiles_resolve (root : EntityRef) (p : String) (inv : Inventory)
    (vID : String) (fe : FileEntry) (f : Cb) :
    ∀ files, nodupKeys (files.map (·.LogicalPath)) = true →
      fe ∈ files →
      loopFiles ⟨root, fileRefOf root p inv vID fe, fileRefOf root p inv vID fe⟩
        (.mk inv.ID p .Object (some root))
        (.mk vID (joinPath p vID) .Version (some (.mk inv.ID p .Object (some root))))
        files f =
      ([fileRefOf root p inv vID fe], f (fileRefOf root p inv vID fe))
  | [], _, hm => by simp at hm
  | fe' :: rest, hnd, hm => by
    rw [List.map_cons, nodupKeys, Bool.and_eq_true] at hnd
    rcases List.mem_cons.mp hm with h1 | h1
    · subst h1
      rw [loopFiles]
      have hc : Scope.contains
          ⟨root, fileRefOf root p inv vID fe, fileRefOf root p inv vID fe⟩
          (.mk fe.LogicalPath
            (joinPath (EntityRef.mk inv.ID p .Object (some root)).Addr fe.PhysicalPath)
            .File
            (some (.mk vID (joinPath p vID) .Version
              (some (.mk inv.ID p .Object (some root)))))) = true := by
        rw [show (EntityRef.mk inv.ID p .Object (some root)).Addr = p from rfl]
        rw [contains_resolve_file]
        simp
      rw [emit, if_pos (by simp [hc])]
      have hfr : (EntityRef.mk fe.LogicalPath
          (joinPath (EntityRef.mk inv.ID p .Object (some root)).Addr fe.PhysicalPath)
          .File
          (some (.mk vID (joinPath p vID) .Version
            (some (.mk inv.ID p .Object (some root)))))) =
          fileRefOf root p inv vID fe := rfl
      rw [hfr]
      cases hf : f (fileRefOf root p inv vID fe) with
      | some e => simp [seqE]
      | none =>
        have hrest : ∀ x ∈ rest, x.LogicalPath ≠ fe.LogicalPath := by
          intro x hx hxe
          have : fe.LogicalPath ∈ rest.map (·.LogicalPath) := by
            rw [← hxe]
            exact List.mem_map_of_mem _ hx
          simp [show (rest.map (·.LogicalPath)).contains fe.LogicalPath = true
            from by simpa using this] at hnd
          exact hnd.1 x hx hxe
        rw [show seqE ([fileRefOf root p inv vID fe], none) =
          fun b => (fileRefOf root p inv vID fe :: (b ()).1, (b ()).2) from rfl]
        dsimp only
        rw [loopFiles_resolve_none root p inv vID fe f rest hrest]
    · have hne : fe'.LogicalPath ≠ fe.LogicalPath := by
        intro hcl
        have : fe.LogicalPath ∈ rest.map (·.LogicalPath) :=
          List.mem_map_of_mem _ h1
        rw [← hcl] at this
        simp [show (rest.map (·.LogicalPath)).contains fe'.LogicalPath = true
          from by simpa using this] at hnd
        exact hnd.1 fe h1 hcl.symm
      rw [loopFiles]
      have hc : Scope.contains
          ⟨root, fileRefOf root p inv vID fe, fileRefOf root p inv vID fe⟩
          (.mk fe'.LogicalPath
            (joinPath (EntityRef.mk inv.ID p .Object (some root)).Addr fe'.PhysicalPath)
            .File
            (some (.mk vID (joinPath p vID) .Version
              (some (.mk inv.ID p .Object (some root)))))) = false := by
        rw [show (EntityRef.mk inv.ID p .Object (some root)).Addr = p from rfl]
        rw [contains_resolve_file]
        simp
        exact fun hcl => hne hcl.symm
      rw [emit, if_neg (by simp [hc])]
      rw [show seqE ([], none) = fun b => ((b ()).1, (b ()).2) from rfl]
      dsimp only
      rw [loopFiles_resolve root p inv vID fe f rest hnd.2 h1]

theorem resolve_file (L : Layout) (root : EntityRef) (p : String) (inv : Inventory)
    (ch : FsForest) (vID : String) (fe : FileEntry) (f : Cb)
    (hroot : root.Type = .Root)
    (hp : p ≠ "")
    (hnode : findNode L.rootAddr L.tree p = some (.mk (.objectRoot (some inv)) ch))
    (hvID : hasVersion inv vID = true)
    (hnodup : nodupKeys (((inv.Files vID).getD []).map (·.LogicalPath)) = true)
    (hfe : fe ∈ (inv.Files vID).getD []) :
    Scope.walkM ⟨root, fileRefOf root p inv vID fe, fileRefOf root p inv vID fe⟩ L f =
      ([fileRefOf root p inv vID fe], f (fileRefOf root p inv vID fe)) := by
  have hwv : Scope.walkVersionsM
      ⟨root, fileRefOf root p inv vID fe, fileRefOf root p inv vID fe⟩ inv
      (.mk inv.ID p .Object (some root)) f =
      ([fileRefOf root p inv vID fe], f (fileRefOf root p inv vID fe)) := by
    unfold Scope.walkVersionsM
    dsimp only
    rw [if_pos (show ((fileRefOf root p inv vID fe).Type == OcflType.Version ||
      (fileRefOf root p inv vID fe).Type == OcflType.File) = true from rfl)]
    rw [findRoot_fileRefOf_version]
    dsimp only
    rw [show (EntityRef.mk vID (joinPath p vID) .Version
      (some (.mk inv.ID p .Object (some root)))).ID = vID from rfl]
    rw [if_pos hvID]
    rw [loopVersions]
    rw [show (EntityRef.mk inv.ID p .Object (some root)).Addr = p from rfl]
    have hver : Scope.contains
        ⟨root, fileRefOf root p inv vID fe, fileRefOf root p inv vID fe⟩
        (.mk vID (joinPath p vID) .Version (some (.mk inv.ID p .Object (some root)))) =
        false :=
      contains_enum_false _ _
        (by exact (show OcflType.File ≠ .Any by decide))
        (by exact (show OcflType.Version ≠ .File by decide))
        (by exact (show OcflType.File ≠ .Version by decide))
    rw [emit, if_neg (by simp [hver])]
    rw [show seqE ([], none) = fun b => ((b ()).1, (b ()).2) from rfl]
    dsimp only
    rw [if_pos (show OcflType.le (fileRefOf root p inv vID fe).Type .File = true from rfl)]
    rw [loopFiles_resolve root p inv vID fe f _ hnodup hfe]
    cases hf : f (fileRefOf root p inv vID fe) with
    | some e => simp [seqE, hf, loopVersions]
    | none => simp [seqE, hf, loopVersions]
  unfold Scope.walkM
  dsimp only
  rw [if_pos (show OcflType.ltc (fileRefOf root p inv vID fe).Type .Object = true from rfl)]
  rw [findRoot_fileRefOf_object]
  dsimp only
  rw [if_neg (show ¬(((EntityRef.mk inv.ID p .Object (some root)).Type == .Root &&
    Scope.contains ⟨root, fileRefOf root p inv vID fe, fileRefOf root p inv vID fe⟩
      (.mk inv.ID p .Object (some root))) = true) by simp [EntityRef.Type])]
  rw [show seqE ([], none) = fun b => ((b ()).1, (b ()).2) from rfl]
  dsimp only
  rw [show (EntityRef.mk inv.ID p .Object (some root)).Addr = p from rfl]
  rw [if_neg (by simpa using hp)]
  rw [hnode]
  dsimp only
  rw [fsWalkTree_objectRoot]
  rw [walkObject_eq_gate]
  dsimp only
  have hobj : Scope.contains
      ⟨root, fileRefOf root p inv vID fe, fileRefOf root p inv vID fe⟩
      (.mk inv.ID p .Object (some root)) = false :=
    contains_enum_false _ _
      (by exact (show OcflType.File ≠ .Any by decide))
      (by exact (show OcflType.Object ≠ .File by decide))
      (by exact (show OcflType.File ≠ .Object by decide))
  rw [emit, if_neg (by simp [hobj])]
  rw [show seqE ([], none) = fun b => ((b ()).1, (b ()).2) from rfl]
  dsimp only
  rw [if_pos (show OcflType.le (fileRefOf root p inv vID fe).Type .Version = true from rfl)]
  exact hwv

theorem walkM_file_provenance (L : Layout) (root sf : EntityRef) (g : Cb)
    (F : EntityRef)
    (hF : F ∈ (Scope.walkM ⟨root, sf, .mk "" "" .File none⟩ L g).1) :
    FileFromLayout L root F := by
  obtain ⟨node, hnode, hcase⟩ := mem_walkM _ L g hF
  rcases hcase with ⟨he1, hT, hc⟩ | ⟨t0, a, k, ch0, hfn, hm, hc⟩
  · rcases contains_bare root sf .File node (by decide) hc with d1 | ⟨_, hle⟩
    · rw [hT] at d1
      exact absurd d1 (by decide)
    · rw [hT] at hle
      exact absurd hle (by decide)
  · rcases mem_cbNode _ g a k hc with ⟨minv, hk, hw⟩ | ⟨heq, hcb, _⟩
    · obtain ⟨inv, hminv, hcase2⟩ := mem_walkObjectM _ a minv g hw
      rcases hcase2 with ⟨he2, hc2⟩ | ⟨hgate, hv⟩
      · rw [he2] at hc2
        rcases contains_bare root sf .File _ (by decide) hc2 with d1 | ⟨_, hle⟩
        · exact absurd d1 (show ¬(OcflType.Object = OcflType.File) by decide)
        · exact absurd hle (show ¬(OcflType.le .Object .File = true) by decide)
      · obtain ⟨vids, hvids, hlv⟩ := mem_walkVersionsM _ inv _ g hv
        obtain ⟨vID, hvmem, hcase3⟩ := mem_loopVersions _ inv _ vids g hlv
        rcases hcase3 with ⟨he3, hc3⟩ | ⟨_, fe, hfe, he3, _⟩
        · rw [he3] at hc3
          rcases contains_bare root sf .File _ (by decide) hc3 with d1 | ⟨_, hle⟩
          · exact absurd d1 (show ¬(OcflType.Version = OcflType.File) by decide)
          · exact absurd hle (show ¬(OcflType.le .Version .File = true) by decide)
        · subst hk
          rw [hminv] at hm
          refine ⟨a, inv, ch0, vID, fe, ?_, hvids vID hvmem, hfe, he3⟩
          exact findNode_sub L.rootAddr L.tree _ t0 hfn _ hm
    · rcases contains_bare root sf .File _ (by decide) hcb with d1 | ⟨_, hle⟩
      · exact absurd d1 (by decide)
      · exact absurd hle (by decide)

/-- Claim C2: coordinate round-trip — every File entity yielded by an
enumeration walk with desired type File, when used as the entry point of
a new walk with desired type File (single resolution on its coordinate
tuple), makes that walk invoke the callback exactly once, with exactly
that File entity.  The layout is assumed well formed: non-empty root
address, one node per computed address, and logical paths unique within
each version listing. -/
theorem C2_roundtrip (L : Layout) (under F : EntityRef) (s0 : Scope) (g f : Cb)
    (hra : L.rootAddr ≠ "")
    (haddrs : addrsOk L = true)
    (hfiles : filesOk L = true)
    (hu : under.Type ≠ .File)
    (hns : newScope under .File = .ok s0)
    (hF : F ∈ (s0.walkM L g).1) :
    newScope F .File = .ok ⟨s0.root, F, F⟩ ∧
    Scope.walkM ⟨s0.root, F, F⟩ L f = ([F], f F) := by
  unfold newScope at hns
  split at hns
  · exact absurd hns (by simp)
  · next root hroot =>
    injection hns with hs
    rw [if_neg (by simpa using hu)] at hs
    subst hs
    have hrt : root.Type = .Root := findRoot_ok_type under .Root root hroot
    obtain ⟨p, inv, ch, vID, fe, hmem, hvmem, hfe, hFeq⟩ :=
      walkM_file_provenance L root under g F hF
    subst hFeq
    have hp : p ≠ "" := by
      have h2 := nodesOf_addr_ne L.rootAddr L.tree hra
        (p, .mk (.objectRoot (some inv)) ch) hmem
      simpa using h2
    have hnode : findNode L.rootAddr L.tree p =
        some (.mk (.objectRoot (some inv)) ch) := by
      rw [findNode_eq_find]
      unfold addrsOk at haddrs
      rw [find?_key_of_nodup _ p _ haddrs hmem]
      rfl
    have hvID : hasVersion inv vID = true := by
      unfold hasVersion
      simpa using hvmem
    have hinv : invFilesOk inv = true := by
      unfold filesOk at hfiles
      have h2 := List.all_eq_true.mp hfiles _ hmem
      simpa using h2
    have hnodup : nodupKeys (((inv.Files vID).getD []).map (·.LogicalPath)) = true := by
      unfold invFilesOk at hinv
      exact List.all_eq_true.mp hinv _ hvmem
    constructor
    · unfold newScope
      rw [findRoot_fileRefOf_root root p inv vID fe hrt]
      rw [if_pos (show ((fileRefOf root p inv vID fe).Type == OcflType.File) = true
        from rfl)]
    · exact resolve_file L root p inv ch vID fe f hrt hp hnode hvID hnodup hfe

/-- Witness for C2 on `layA`: the file `a.txt` of version `v1` yielded by
the enumeration walk resolves back to exactly itself. -/
theorem C2_roundtrip_w :
    layA.rootAddr ≠ "" ∧ addrsOk layA = true ∧ filesOk layA = true ∧
    rootRefA.Type ≠ .File ∧
    newScope rootRefA .File = .ok ⟨rootRefA, rootRefA, .mk "" "" .File none⟩ ∧
    fileRefA ∈ (Scope.walkM ⟨rootRefA, rootRefA, .mk "" "" .File none⟩ layA cbOk).1 ∧
    (newScope fileRefA .File = .ok ⟨rootRefA, fileRefA, fileRefA⟩ ∧
     Scope.walkM ⟨rootRefA, fileRefA, fileRefA⟩ layA cbOk = ([fileRefA], none)) :=
  ⟨by decide, by decide, by decide, by decide, rfl, by decide,
    C2_roundtrip layA rootRefA fileRefA _ cbOk cbOk (by decide) (by decide)
      (by decide) (by decide) rfl (by decide)⟩

/-- Witness for C6 at desired type Object with a concrete scope. -/
theorem C6_gate_w :
    (OcflType.le .Object .Version = true ↔
      (OcflType.Object = .Version ∨ OcflType.Object = .File)) ∧
    Scope.walkObjectM ⟨rootRefA, rootRefA, .mk "" "" .Object none⟩ "R/inter/obj"
        (some invA) cbOk =
      seqE (emit ⟨rootRefA, rootRefA, .mk "" "" .Object none⟩ cbOk
          (.mk invA.ID "R/inter/obj" .Object (some rootRefA))) fun _ =>
        if OcflType.Object = .Version ∨ OcflType.Object = .File then
          Scope.walkVersionsM ⟨rootRefA, rootRefA, .mk "" "" .Object none⟩ invA
            (.mk invA.ID "R/inter/obj" .Object (some rootRefA)) cbOk
        else ([], none) :=
  ⟨(C6_gate .Object (by decide)).1,
    (C6_gate .Object (by decide)).2.1 _ "R/inter/obj" invA cbOk rfl⟩

end Ocfl
